import Mathlib

/-!
Changelog generator.

A shallow embedding of `scripts/generate_changelog/main.go` and the properties of its
merge, grouping and classification steps.

Go strings and byte slices are modelled as lists of characters.  Run-time panics and
returned errors are explicit results.  The external collaborators (the VCS binary and the
file system) appear as parameters: `AppendToChangelog` is a function of the text of the
existing document and of the rendered fragment, `detectScope` a function of the output of
`git diff-tree`.
-/

namespace Changelog

/-- Go strings, as lists of characters. -/
abbrev Str := List Char

/-- Length of the UTF-8 encoding in bytes (`len` of a Go string). -/
def byteLen : Str → Nat
  | [] => 0
  | c :: cs => c.utf8Size + byteLen cs

/-- Outcome of a Go function that can return an error or panic at run time. -/
inductive Result (α : Type) where
  | ok (val : α)
  | err
  | panicked
  deriving DecidableEq, Repr

/-! ## Package `strings` -/

/-- The function `strings.Index`: position of the first occurrence of `sep` in `s`. -/
def strings.Index : Str → Str → Option Nat
  | [], sep => if sep = [] then some 0 else none
  | c :: cs, sep =>
    if sep.isPrefixOf (c :: cs) then some 0 else (strings.Index cs sep).map (· + 1)

/-- The loop of `strings.Split` for a non-empty separator: cut at the first occurrence,
continue behind it. -/
def strings.splitLoop : Nat → Str → Str → List Str
  | 0, s, _ => [s]
  | fuel + 1, s, sep =>
    match strings.Index s sep with
    | none => [s]
    | some i => s.take i :: strings.splitLoop fuel (s.drop (i + sep.length)) sep

/-- The function `strings.Split`.  With an empty separator the string is exploded into its
characters.  Every cut removes at least one character, so `s.length` rounds are enough. -/
def strings.Split (s sep : Str) : List Str :=
  if sep = [] then s.map (fun c => [c]) else strings.splitLoop s.length s sep

/-- The predicate `unicode.IsSpace`. -/
def isSpace (c : Char) : Bool :=
  c = '\t' || c = '\n' || c.toNat = 0x0B || c.toNat = 0x0C || c = '\r' || c = ' '
    || c.toNat = 0x85 || c.toNat = 0xA0 || c.toNat = 0x1680
    || (0x2000 ≤ c.toNat && c.toNat ≤ 0x200A)
    || c.toNat = 0x2028 || c.toNat = 0x2029 || c.toNat = 0x202F || c.toNat = 0x205F
    || c.toNat = 0x3000

/-- The function `strings.TrimSpace`: leading and trailing white space removed. -/
def strings.TrimSpace (s : Str) : Str :=
  ((s.dropWhile isSpace).reverse.dropWhile isSpace).reverse

/-! ## `bufio.Scanner` with the default split function `ScanLines` -/

/-- The constant `bufio.MaxScanTokenSize`: the size the scanner's buffer may grow to. -/
def maxScanTokenSize : Nat := 64 * 1024

/-- The helper `dropCR` of `bufio.ScanLines`: one trailing carriage return is removed. -/
def dropCR (data : Str) : Str :=
  if data.getLast? = some '\r' then data.dropLast else data

/-- One call of `Scanner.Scan` on the unread input: the token and the input left, or `none`
when `Scan` returns false.  That happens at the end of the input, and when the buffer is
full (`maxScanTokenSize` bytes) without holding a newline: the scanner then stops with
`ErrTooLong`. -/
def scan (input : Str) : Option (Str × Str) :=
  if input = [] then none
  else
    let line := input.takeWhile (· ≠ '\n')
    if maxScanTokenSize ≤ byteLen line then none
    else some (dropCR line, (input.dropWhile (· ≠ '\n')).drop 1)

/-- The tokens of the loop `for scanner.Scan() { ... }`, at most `fuel` of them. -/
def scanLoop : Nat → Str → List Str
  | 0, _ => []
  | fuel + 1, input =>
    match scan input with
    | none => []
    | some (token, rest) => token :: scanLoop fuel rest

/-- All tokens the scanner delivers.  Every token consumes at least one character of the
input, so `input.length` rounds are enough. -/
def scanLines (input : Str) : List Str :=
  scanLoop input.length input

/-! ## `AppendToChangelog` -/

/-- The heading line that anchors the merge. -/
def marker : Str := "# Changelog".toList

/-- The variable `header` of `AppendToChangelog`. -/
def header : Str := "<!-- markdownlint-disable MD024 -->\n\n# Changelog\n".toList

/-- Loop state of `AppendToChangelog`: the flag `read` and the buffer `buf`. -/
structure MergeState where
  read : Bool
  buf : Str
  deriving DecidableEq, Repr

/-- Body of the scanning loop of `AppendToChangelog` for one line. -/
def mergeLine (st : MergeState) (text : Str) : MergeState :=
  if st.read = false ∧ text = marker then { st with read := true }
  else if st.read = true then { st with buf := st.buf ++ text ++ ['\n'] }
  else st

/-- Contents of `buf` after the scanning loop: the tail carried over from the existing
document. -/
def changelogTail (existing : Str) : Str :=
  ((scanLines existing).foldl mergeLine { read := false, buf := [] }).buf

/-- The function `AppendToChangelog` as a function of the text of `CHANGELOG.md` and of the
rendered fragment `change`: the text written back. -/
def AppendToChangelog (existing change : Str) : Str :=
  let out := header ++ ['\n'] ++ change
  out ++ changelogTail existing

/-! ## Commits and their classification -/

/-- The struct `Commit`; the field `Type_` is the field `Type` of the source. -/
structure Commit where
  Hash : Str
  AuthorName : Str
  Type_ : Str
  Scope : Str
  Subject : Str
  deriving DecidableEq, Repr

/-- The zero value `Commit{}`. -/
def Commit.zero : Commit :=
  { Hash := [], AuthorName := [], Type_ := [], Scope := [], Subject := [] }

/-- The variable `delimiter`: the marker between the fields of a record. -/
def delimiter : Str := "@@__CHGLOG_DELIMITER__@@".toList

/-- The variable `hashField`. -/
def hashField : Str := "HASH".toList

/-- The variable `authorField`. -/
def authorField : Str := "AUTHOR".toList

/-- The variable `subjectField`. -/
def subjectField : Str := "SUBJECT".toList

/-- The class `\w` of Go regular expressions: `[0-9A-Za-z_]`. -/
def isWordChar (c : Char) : Bool :=
  c.isAlphanum || c = '_'

/-- The class `\s` of Go regular expressions: `[\t\n\f\r ]`. -/
def isReSpace (c : Char) : Bool :=
  c = '\t' || c = '\n' || c.toNat = 0x0C || c = '\r' || c = ' '

/-- The class `[\w\$\.\-\*\s]` of the scope group. -/
def isScopeChar (c : Char) : Bool :=
  isWordChar c || c = '$' || c = '.' || c = '-' || c = '*' || isReSpace c

/-- The end `\:\s(.*)$` of the header expression; `.` matches every character but the
newline, and `$` only the end of the text. -/
def matchRest : Str → Option Str
  | ':' :: w :: rest =>
    if isReSpace w ∧ rest.all (· ≠ '\n') then some rest else none
  | _ => none

/-- The expression `^(\w*)(?:\(([\w\$\.\-\*\s]*)\))?\:\s(.*)$` applied to `value`: the three
submatches `res[0][1]`, `res[0][2]`, `res[0][3]`, or `none` when `res` is empty.  The
characters that may follow the type and the scope are outside their classes, so the greedy
repetitions stop exactly at the first character outside the class. -/
def reHeader (value : Str) : Option (Str × Str × Str) :=
  let ty := value.takeWhile isWordChar
  match value.dropWhile isWordChar with
  | '(' :: more =>
    let sc := more.takeWhile isScopeChar
    match more.dropWhile isScopeChar with
    | ')' :: tl => (matchRest tl).map (fun subj => (ty, sc, subj))
    | _ => none
  | after => (matchRest after).map (fun subj => (ty, [], subj))

/-- Body of the token loop of `parseCommit`. -/
def parseToken (commit : Commit) (token : Str) : Result Commit :=
  match strings.Index token [':'] with
  | none => .panicked
  | some firstSep =>
    let field := token.take firstSep
    let value := strings.TrimSpace (token.drop (firstSep + 1))
    if field = hashField then .ok { commit with Hash := value }
    else if field = authorField then .ok { commit with AuthorName := value }
    else if field = subjectField then
      match reHeader value with
      | some (ty, sc, subj) => .ok { commit with Type_ := ty, Scope := sc, Subject := subj }
      | none => .ok commit
    else .ok commit

/-- The token loop of `parseCommit`. -/
def parseTokens : Commit → List Str → Result Commit
  | commit, [] => .ok commit
  | commit, token :: rest =>
    match parseToken commit token with
    | .ok next => parseTokens next rest
    | .err => .err
    | .panicked => .panicked

/-! ## Scope detection -/

/-- The literal beginning `plugins/` of the path expression. -/
def pluginsSlash : Str := "plugins/".toList

/-- The expression `plugins\/(.*){2}\/` tried at the beginning of `s`: behind `plugins/`
the two greedy groups take the rest of the line up to its last `/`. -/
def matchPluginPathAt (s : Str) : Option Str :=
  if pluginsSlash.isPrefixOf s then
    let run := (s.drop pluginsSlash.length).takeWhile (· ≠ '\n')
    let upto := ((run.reverse).dropWhile (· ≠ '/')).reverse
    if upto = [] then none else some (pluginsSlash ++ upto)
  else none

/-- The call `r.FindString(c)`: the leftmost match, the empty string when there is none. -/
def findPluginPath : Str → Str
  | [] => []
  | c :: cs =>
    match matchPluginPathAt (c :: cs) with
    | some m => m
    | none => findPluginPath cs

/-- The loop of `detectScope` over the changed files.  The index expressions panic when
they are out of range; in the guard the right operand of `&&` is only evaluated when the
left one holds. -/
def detectScopeLoop : List Str → Result Str
  | [] => .ok []
  | c :: rest =>
    let changedFilePath := findPluginPath c
    if changedFilePath ≠ [] then
      let pluginPath := strings.Split changedFilePath ['/']
      let guard : Option Bool :=
        if pluginPath.length < 3 then
          (pluginPath[2]?).map (fun p => decide (p = [] ∨ p = "all".toList))
        else some false
      match guard with
      | none => .panicked
      | some true => detectScopeLoop rest
      | some false =>
        match pluginPath[1]?, pluginPath[2]? with
        | some category, some component => .ok (category ++ ['.'] ++ component)
        | _, _ => .panicked
    else detectScopeLoop rest

/-- The function `detectScope`; `diffTree hash` is the output of
`git diff-tree --no-commit-id --name-only -r hash`, `none` when the command fails. -/
def detectScope (diffTree : Str → Option Str) (hash : Str) : Result Str :=
  match diffTree hash with
  | none => .ok []
  | some changedFiles =>
    if changedFiles = [] then .ok []
    else detectScopeLoop (strings.Split changedFiles ['\n'])

/-- The function `parseCommit`. -/
def parseCommit (diffTree : Str → Option Str) (input delimiter : Str) : Result Commit :=
  match parseTokens Commit.zero (strings.Split input delimiter) with
  | .ok commit =>
    if commit.Scope = [] then
      match detectScope diffTree commit.Hash with
      | .ok scope => .ok { commit with Scope := scope }
      | .err => .err
      | .panicked => .panicked
    else .ok commit
  | .err => .err
  | .panicked => .panicked

/-- The guard `len(pluginPath) < 3 && (pluginPath[2] == "" || pluginPath[2] == "all")` of
`detectScope`, as it stands in `detectScopeLoop`: `none` when reading `pluginPath[2]`
panics. -/
def skipGuard (pluginPath : List Str) : Option Bool :=
  if pluginPath.length < 3 then
    (pluginPath[2]?).map (fun p => decide (p = [] ∨ p = "all".toList))
  else some false

/-- A path in which the text `plugins/` is nowhere followed by a further `/`: the path
expression finds nothing in it. -/
def noPluginPattern (path : Str) : Prop :=
  ∀ pre post : Str, path = pre ++ pluginsSlash ++ post → '/' ∉ post

/-! ## `ParseCommits` -/

/-- The variable `separator`: the marker in front of every record of the log. -/
def separator : Str := "@@__CHGLOG__@@".toList

/-- The variable `bodyField`. -/
def bodyField : Str := "BODY".toList

/-- The variable `ignoreList`. -/
def ignoreList : List Str :=
  ["update etc/telegraf.conf and etc/telegraf_windows.conf".toList, "update configs".toList]

/-- The function `strings.Contains`: `Index(s, substr) >= 0`. -/
def strings.Contains (s substr : Str) : Bool :=
  (strings.Index s substr).isSome

/-- The function `strings.TrimSuffix`. -/
def strings.TrimSuffix (s suffix : Str) : Str :=
  if suffix.isSuffixOf s then s.take (s.length - suffix.length) else s

/-- The answers of the `git` binary: `revList` is the output of
`git rev-list --tags --max-count=1`, `describe rev` of `git describe --tags rev`,
`log pretty range` of `git log pretty range` and `diffTree hash` of
`git diff-tree --no-commit-id --name-only -r hash`; `none` when the command fails. -/
structure Git where
  revList : Option Str
  describe : Str → Option Str
  log : Str → Str → Option Str
  diffTree : Str → Option Str

/-- The variable `logFormat` of `ParseCommits`. -/
def logFormat : Str :=
  separator ++ List.intercalate delimiter
    [hashField ++ ":%h".toList, authorField ++ ":%an".toList, subjectField ++ ":%s".toList,
      bodyField ++ ":%b".toList]

/-- The three queries at the beginning of `ParseCommits`: the text `logs`, or `none` when
one of the commands fails. -/
def gitLogs (git : Git) : Option Str :=
  match git.revList with
  | none => none
  | some latestTagHash =>
    match git.describe (strings.TrimSuffix latestTagHash ['\n']) with
    | none => none
    | some tag =>
      let latestTag := strings.TrimSuffix tag ['\n']
      git.log ("--pretty=".toList ++ logFormat) (latestTag ++ "...".toList)

/-- The inner loop of `ParseCommits` over `ignoreList`: the flag `ignore`. -/
def isIgnored (subject : Str) : Bool :=
  ignoreList.any (fun substring => strings.Contains subject substring)

/-- The loop of `ParseCommits` over the records: the entry of a record is its commit, and
stays the zero value of the slice made by `make` when the commit is ignored.  The first
record whose parsing fails ends the loop. -/
def parseLines (diffTree : Str → Option Str) : List Str → Result (List Commit)
  | [] => .ok []
  | line :: rest =>
    match parseCommit diffTree line delimiter with
    | .ok commit =>
      match parseLines diffTree rest with
      | .ok commits => .ok ((if isIgnored commit.Subject then Commit.zero else commit) :: commits)
      | .err => .err
      | .panicked => .panicked
    | .err => .err
    | .panicked => .panicked

/-- The statements `lines := strings.Split(string(logs), separator)` and
`lines = lines[1:]`; the slice expression panics on an empty slice. -/
def splitRecords (logs : Str) : Result (List Str) :=
  match strings.Split logs separator with
  | [] => .panicked
  | _ :: lines => .ok lines

/-- The function `ParseCommits` from the text `logs` on. -/
def parseLog (diffTree : Str → Option Str) (logs : Str) : Result (List Commit) :=
  match splitRecords logs with
  | .ok lines => parseLines diffTree lines
  | .err => .err
  | .panicked => .panicked

/-- The function `ParseCommits`. -/
def ParseCommits (git : Git) : Result (List Commit) :=
  match gitLogs git with
  | none => .err
  | some logs => parseLog git.diffTree logs

/-! ## Grouping -/

/-- The struct `CommitGroup`. -/
structure CommitGroup where
  Title : Str
  Commits : List Commit
  deriving DecidableEq, Repr

/-- Loop state of `CreateCommitGroups`: the two groups under construction. -/
structure GroupState where
  featGroup : CommitGroup
  bugGroup : CommitGroup
  deriving DecidableEq, Repr

/-- Body of the loop of `CreateCommitGroups`: the switch on `c.Type`. -/
def groupCommit (st : GroupState) (c : Commit) : GroupState :=
  if c.Type_ = "fix".toList then
    { st with bugGroup := { st.bugGroup with Commits := st.bugGroup.Commits ++ [c] } }
  else if c.Type_ = "feat".toList then
    { st with featGroup := { st.featGroup with Commits := st.featGroup.Commits ++ [c] } }
  else st

/-- The function `CreateCommitGroups`. -/
def CreateCommitGroups (commits : List Commit) : List CommitGroup :=
  let st := commits.foldl groupCommit
    { featGroup := { Title := "Features".toList, Commits := [] },
      bugGroup := { Title := "Bugfixes".toList, Commits := [] } }
  [st.bugGroup, st.featGroup]

/-! ## The plugin page of package `ui` -/

/-- The struct `Item`. -/
structure Item where
  ItemTitle : Str
  Desc : Str
  deriving DecidableEq, Repr

/-- A message of the terminal framework: a `tea.KeyMsg` with the text of `msg.String()`,
or a message of another type. -/
inductive Msg where
  | key (keypress : Str)
  | other
  deriving DecidableEq, Repr

/-- The collaborators of the page: the list widget with the type `M` of `list.Model` and
the type `C` of `tea.Cmd` (`createPluginList`, `list.Model.Update`, `list.Model.View`), the
command `tea.Quit`, the rendering of the row of tabs for the tabs and the active index,
and `docStyle.Render`. -/
structure Widgets (M C : Type) where
  createPluginList : List Item → M
  listUpdate : M → Msg → M × Option C
  listView : M → Str
  quit : C
  renderTabs : List Str → Int → Str
  docRender : Str → Str

/-- The struct `PluginPage`. -/
structure PluginPage (M : Type) where
  Tabs : List Str
  TabContent : List M
  activatedTab : Int

/-- An index expression `xs[i]` with an `int` index: `none` when it panics. -/
def indexInt {α : Type} (xs : List α) (i : Int) : Option α :=
  if 0 ≤ i then xs[i.toNat]? else none

/-- The function `NewPluginPage`; the four arguments are the items collected from the
plugin registries. -/
def NewPluginPage {M C : Type} (w : Widgets M C)
    (inputContent outputContent aggregatorContent processorContent : List Item) :
    PluginPage M :=
  { Tabs := ["Inputs".toList, "Outputs".toList, "Aggregators".toList, "Processors".toList],
    TabContent := [w.createPluginList inputContent, w.createPluginList outputContent,
      w.createPluginList aggregatorContent, w.createPluginList processorContent],
    activatedTab := 0 }

/-- The end of `Update`: the message is handed to the list of the active tab, which is
replaced by the updated list. -/
def PluginPage.forward {M C : Type} (w : Widgets M C) (p : PluginPage M) (msg : Msg) :
    Result (PluginPage M × Option C) :=
  match indexInt p.TabContent p.activatedTab with
  | none => .panicked
  | some content =>
    .ok ({ p with TabContent := p.TabContent.set p.activatedTab.toNat (w.listUpdate content msg).1 },
      (w.listUpdate content msg).2)

/-- The method `Update`: the page after the message and the command returned. -/
def PluginPage.Update {M C : Type} (w : Widgets M C) (p : PluginPage M) (msg : Msg) :
    Result (PluginPage M × Option C) :=
  match msg with
  | .key keypress =>
    if keypress = "ctrl+c".toList ∨ keypress = "q".toList then .ok (p, some w.quit)
    else if keypress = "right".toList then
      .ok (if p.activatedTab < (p.Tabs.length : Int) - 1 then
          { p with activatedTab := p.activatedTab + 1 }
        else p, none)
    else if keypress = "left".toList then
      .ok (if p.activatedTab > 0 then { p with activatedTab := p.activatedTab - 1 } else p,
        none)
    else p.forward w msg
  | .other => p.forward w msg

/-- The method `View`. -/
def PluginPage.View {M C : Type} (w : Widgets M C) (p : PluginPage M) : Result Str :=
  match indexInt p.TabContent p.activatedTab with
  | none => .panicked
  | some content =>
    .ok (w.docRender (w.renderTabs p.Tabs p.activatedTab ++ "\n\n".toList ++ w.listView content))

/-- The page after a sequence of messages handled by `Update`, one after the other. -/
def runUpdates {M C : Type} (w : Widgets M C) : PluginPage M → List Msg → Result (PluginPage M)
  | p, [] => .ok p
  | p, msg :: rest =>
    match p.Update w msg with
    | .ok next => runUpdates w next.1 rest
    | .err => .err
    | .panicked => .panicked

/-! ## Lines of a text, in the words of the specification -/

/-- The pieces of a text between newline characters; what follows the last newline is a
line only when it is not empty. -/
def rawLines : Str → List Str
  | [] => []
  | c :: cs =>
    if c = '\n' then [] :: rawLines cs
    else
      match rawLines cs with
      | [] => [[c]]
      | l :: ls => (c :: l) :: ls

/-- The lines of a text without their end-of-line markers (`\r?\n`). -/
def textLines (doc : Str) : List Str :=
  (rawLines doc).map dropCR

/-- Every line followed by a newline. -/
def linesText (ls : List Str) : Str :=
  (ls.map (· ++ ['\n'])).flatten

/-- The lines behind the first line that equals the marker. -/
def linesAfterMarker (ls : List Str) : List Str :=
  (ls.dropWhile (· ≠ marker)).drop 1

/-! ## Field tokens, in the words of the specification -/

/-- The field name of a token: everything before the first colon. -/
def fieldName (token : Str) : Str :=
  token.takeWhile (· ≠ ':')

/-- The field value of a token: everything after the first colon, with leading and
trailing white space trimmed. -/
def fieldValue (token : Str) : Str :=
  strings.TrimSpace ((token.dropWhile (· ≠ ':')).drop 1)

/-- The conventional-commit grammar `type(scope): rest` on a subject value: a type of word
characters, an optional scope in parentheses, a colon, one white space character and a
rest without newline. -/
def matchesGrammar (value : Str) : Prop :=
  ∃ t s r : Str, ∃ w : Char,
    (∀ c ∈ t, isWordChar c = true) ∧ (∀ c ∈ s, isScopeChar c = true) ∧ isReSpace w = true
      ∧ '\n' ∉ r
      ∧ (value = t ++ ':' :: w :: r ∨ value = t ++ '(' :: (s ++ ')' :: ':' :: w :: r))

/-- The effect of one field on a commit: `HASH` sets the hash, `AUTHOR` the author name,
`SUBJECT` the type, scope and subject when its value matches the header expression; every
other field, and a subject that does not match, leave the commit as it is. -/
def applyField (commit : Commit) (token : Str) : Commit :=
  if fieldName token = hashField then { commit with Hash := fieldValue token }
  else if fieldName token = authorField then { commit with AuthorName := fieldValue token }
  else if fieldName token = subjectField then
    match reHeader (fieldValue token) with
    | some (ty, sc, subj) => { commit with Type_ := ty, Scope := sc, Subject := subj }
    | none => commit
  else commit

/-- One field read for the scope of the grammar: a `SUBJECT` field whose value matches
gives its scope submatch. -/
def scopeStep (acc token : Str) : Str :=
  if fieldName token = subjectField then
    match reHeader (fieldValue token) with
    | some (_, sc, _) => sc
    | none => acc
  else acc

/-- The scope the grammar yields for a record: the scope submatch of the last `SUBJECT`
field whose value matches, empty when there is none. -/
def explicitScope (tokens : List Str) : Str :=
  tokens.foldl scopeStep []

/-- One field read for the hash: a `HASH` field gives its value. -/
def hashStep (acc token : Str) : Str :=
  if fieldName token = hashField then fieldValue token else acc

/-- The value of the `HASH` field of a record (of the last one when there are several),
empty when there is none. -/
def hashValue (tokens : List Str) : Str :=
  tokens.foldl hashStep []

/-- The first line of `header`. -/
def headerLead : Str := "<!-- markdownlint-disable MD024 -->".toList

/-! ## The log and its records, in the words of the specification -/

/-- The log text of a sequence of records: every record prefixed by the separator. -/
def logText : List Str → Str
  | [] => []
  | r :: rs => separator ++ r ++ logText rs

/-- The entry of the returned slice for a classified commit: the commit itself, or the
zero value when its subject holds one of the substrings to ignore. -/
def sliceEntry (commit : Commit) : Commit :=
  if isIgnored commit.Subject then Commit.zero else commit

/-! ## Concrete inputs -/

/-- A line that fills the buffer of the scanner. -/
def longLine : Str :=
  List.replicate maxScanTokenSize 'x'

/-- A document with the heading followed by one line that fills the buffer of the scanner. -/
def longLineDoc : Str :=
  marker ++ '\n' :: (longLine ++ ['\n'])

/-- A record in the format of the log query, with an explicit scope in its subject. -/
def scopedRecord : Str :=
  "HASH:abc123".toList ++ delimiter ++ "AUTHOR:Jane".toList ++ delimiter
    ++ "SUBJECT:fix(api.client): retry on timeout".toList ++ delimiter ++ "BODY:\n".toList

/-- A record whose subject has a type and no scope. -/
def plainRecord : Str :=
  "HASH:abc123".toList ++ delimiter ++ "SUBJECT:feat: add parser".toList

/-- A record whose subject does not follow the grammar. -/
def configRecord : Str :=
  "HASH:abc".toList ++ delimiter ++ "SUBJECT:update configs".toList

/-- A repository in which every commit touches the file `plugins/inputs/mqtt/mqtt.go`. -/
def mqttDiffTree : Str → Option Str :=
  fun _ => some "plugins/inputs/mqtt/mqtt.go\n".toList

/-- A repository in which every commit touches only `plugins/outputs/all/README.md`. -/
def allDiffTree : Str → Option Str :=
  fun _ => some "plugins/outputs/all/README.md\n".toList

/-- A repository in which every commit touches `plugins/outputs/all/README.md` and then
`plugins/inputs/mqtt/mqtt.go`. -/
def allThenMqttDiffTree : Str → Option Str :=
  fun _ => some "plugins/outputs/all/README.md\nplugins/inputs/mqtt/mqtt.go\n".toList

/-- A repository in which every commit touches a file outside `plugins`, then a file of the
input plugin `mqtt` and then one of the output plugin `kafka`. -/
def mixedDiffTree : Str → Option Str :=
  fun _ =>
    some "README.md\nplugins/inputs/mqtt/mqtt.go\nplugins/outputs/kafka/kafka.go\n".toList

/-- A repository in which every commit touches only `docs/plugins/inputs/mqtt/README.md`. -/
def docsDiffTree : Str → Option Str :=
  fun _ => some "docs/plugins/inputs/mqtt/README.md\n".toList

/-- A repository in which every commit touches `README.md` and `plugins/README.md`. -/
def readmeDiffTree : Str → Option Str :=
  fun _ => some "README.md\nplugins/README.md\n".toList

/-- A repository whose queries for the latest tag succeed and whose log is `logs`. -/
def gitWithLog (logs : Str) (diffTree : Str → Option Str) : Git :=
  { revList := some "0a1b2c3\n".toList,
    describe := fun _ => some "v1.0.0\n".toList,
    log := fun _ _ => some logs,
    diffTree := diffTree }

/-- A record with a field token that holds no colon. -/
def malformedRecord : Str :=
  "HASH:abc".toList ++ delimiter ++ "oops".toList

/-- A record whose parsed subject holds the substring `update configs`. -/
def ignoredRecord : Str :=
  "HASH:a1".toList ++ delimiter ++ "SUBJECT:chore: update configs\n".toList

/-- A record with a fix. -/
def fixRecord : Str :=
  "HASH:b2".toList ++ delimiter ++ "SUBJECT:fix: close file\n".toList

/-- The record `plainRecord` with a `BODY` field, whose value holds a colon, put between
its two fields. -/
def plainRecordWithBody : Str :=
  "HASH:abc123".toList ++ delimiter ++ "BODY:see: notes".toList ++ delimiter
    ++ "SUBJECT:feat: add parser".toList

/-- The commit of `fixRecord` in a repository without changed files. -/
def fixCommit : Commit :=
  { Hash := "b2".toList, AuthorName := [], Type_ := "fix".toList, Scope := [],
    Subject := "close file".toList }

/-- The commit of `ignoredRecord` in a repository without changed files. -/
def ignoredCommit : Commit :=
  { Hash := "a1".toList, AuthorName := [], Type_ := "chore".toList, Scope := [],
    Subject := "update configs".toList }

/-- Widgets whose lists are the numbers of their items. -/
def countingWidgets : Widgets Nat Unit :=
  { createPluginList := fun content => content.length,
    listUpdate := fun m _ => (m + 1, none),
    listView := fun _ => [],
    quit := (),
    renderTabs := fun _ _ => [],
    docRender := fun doc => doc }

/-- A repository in which every commit touches `docs/plugins/outputs/kafka/README.md` and
then `plugins/inputs/mqtt/mqtt.go`. -/
def docsThenMqttDiffTree : Str → Option Str :=
  fun _ => some "docs/plugins/outputs/kafka/README.md\nplugins/inputs/mqtt/mqtt.go\n".toList

/-- A record of type `fix` whose parsed subject holds the substring `update configs`. -/
def ignoredFixRecord : Str :=
  "HASH:c3".toList ++ delimiter ++ "SUBJECT:fix: update configs\n".toList

/-! ## Theorems -/

/-! ### Lines and the scanner -/

theorem rawLines_eq_cons (input : Str) (h : input ≠ []) :
    rawLines input
      = input.takeWhile (· ≠ '\n') :: rawLines ((input.dropWhile (· ≠ '\n')).drop 1) := by
  induction input with
  | nil => exact absurd rfl h
  | cons c cs ih =>
    by_cases hc : c = '\n'
    · subst hc
      simp [rawLines]
    · cases cs with
      | nil => simp [rawLines, hc]
      | cons d ds =>
        have ih2 := ih (by simp)
        simp only [rawLines, hc, if_false] at ih2 ⊢
        rw [ih2]
        simp [List.takeWhile_cons, List.dropWhile_cons, hc]

theorem length_dropWhile_le (p : Char → Bool) (s : Str) :
    (s.dropWhile p).length ≤ s.length := by
  induction s with
  | nil => simp
  | cons c cs ih =>
    simp only [List.dropWhile_cons]
    split
    · simp only [List.length_cons]; omega
    · exact Nat.le_refl _

theorem length_rest_lt (s : Str) (h : s ≠ []) :
    ((s.dropWhile (· ≠ '\n')).drop 1).length < s.length := by
  have h1 := length_dropWhile_le (· ≠ '\n') s
  have h2 : 0 < s.length := List.length_pos.mpr h
  simp only [List.length_drop]
  omega

theorem scan_nil : scan [] = none := by
  simp [scan]

theorem scan_of_bounded (input : Str) (h : input ≠ [])
    (hb : byteLen (input.takeWhile (· ≠ '\n')) < maxScanTokenSize) :
    scan input = some (dropCR (input.takeWhile (· ≠ '\n')),
      (input.dropWhile (· ≠ '\n')).drop 1) := by
  simp only [scan, if_neg h, if_neg (Nat.not_le.mpr hb)]

theorem scan_of_tooLong (input : Str)
    (hb : maxScanTokenSize ≤ byteLen (input.takeWhile (· ≠ '\n'))) :
    scan input = none := by
  simp only [scan, if_pos hb, ite_self]

/-- When no line exceeds the buffer of the scanner, the scanner delivers the lines of the
text. -/
theorem scanLoop_eq_textLines (fuel : Nat) :
    ∀ input : Str, input.length ≤ fuel →
      (∀ l ∈ rawLines input, byteLen l < maxScanTokenSize) →
      scanLoop fuel input = textLines input := by
  induction fuel with
  | zero =>
    intro input hlen _
    have : input = [] := List.length_eq_zero.mp (Nat.le_zero.mp hlen)
    subst this
    simp [scanLoop, textLines, rawLines]
  | succ n ih =>
    intro input hlen hb
    by_cases h : input = []
    · subst h
      simp [scanLoop, scan_nil, textLines, rawLines]
    · have hr := rawLines_eq_cons input h
      rw [hr] at hb
      have hb1 := hb _ (List.mem_cons_self _ _)
      have hlt := length_rest_lt input h
      have ih2 := ih ((input.dropWhile (· ≠ '\n')).drop 1) (by omega)
        (fun l hl => hb l (List.mem_cons_of_mem _ hl))
      simp only [scanLoop, scan_of_bounded input h hb1, ih2, textLines, hr, List.map_cons]

theorem scanLines_eq_textLines (input : Str)
    (hb : ∀ l ∈ rawLines input, byteLen l < maxScanTokenSize) :
    scanLines input = textLines input :=
  scanLoop_eq_textLines input.length input (Nat.le_refl _) hb

/-- The scanner always delivers an initial part of the lines of the text. -/
theorem scanLoop_initial (fuel : Nat) :
    ∀ input : Str, scanLoop fuel input <+: textLines input := by
  induction fuel with
  | zero => intro input; simp [scanLoop]
  | succ n ih =>
    intro input
    by_cases h : input = []
    · subst h
      simp [scanLoop, scan_nil]
    · by_cases hb : byteLen (input.takeWhile (· ≠ '\n')) < maxScanTokenSize
      · simp only [scanLoop, scan_of_bounded input h hb, textLines, rawLines_eq_cons input h,
          List.map_cons]
        exact (List.prefix_cons_inj _).mpr (ih _)
      · simp [scanLoop, scan_of_tooLong input (Nat.not_lt.mp hb)]

theorem scanLines_initial (input : Str) : scanLines input <+: textLines input :=
  scanLoop_initial input.length input

theorem scan_length_lt (input token rest : Str) (h : scan input = some (token, rest)) :
    rest.length < input.length := by
  by_cases hi : input = []
  · subst hi
    simp [scan_nil] at h
  · unfold scan at h
    rw [if_neg hi] at h
    simp only [] at h
    split at h
    · exact absurd h (by simp)
    · simp only [Option.some.injEq, Prod.mk.injEq] at h
      rw [← h.2]
      exact length_rest_lt input hi

theorem scanLoop_stable (n : Nat) :
    ∀ (m : Nat) (input : Str), input.length ≤ n → input.length ≤ m →
      scanLoop n input = scanLoop m input := by
  induction n with
  | zero =>
    intro m input hn _
    have : input = [] := List.length_eq_zero.mp (Nat.le_zero.mp hn)
    subst this
    cases m <;> simp [scanLoop, scan_nil]
  | succ n ih =>
    intro m input hn hm
    cases m with
    | zero =>
      have : input = [] := List.length_eq_zero.mp (Nat.le_zero.mp hm)
      subst this
      simp [scanLoop, scan_nil]
    | succ m =>
      simp only [scanLoop]
      cases hs : scan input with
      | none => rfl
      | some tr =>
        obtain ⟨token, rest⟩ := tr
        have hlt := scan_length_lt input token rest hs
        simp only []
        rw [ih m rest (by omega) (by omega)]

theorem scanLines_of_scan_none (input : Str) (h : scan input = none) :
    scanLines input = [] := by
  unfold scanLines
  cases hl : input.length with
  | zero => rfl
  | succ k => simp only [scanLoop, h]

theorem scanLines_of_scan_some (input token rest : Str) (h : scan input = some (token, rest)) :
    scanLines input = token :: scanLines rest := by
  have hlt := scan_length_lt input token rest h
  unfold scanLines
  cases hl : input.length with
  | zero => omega
  | succ k =>
    simp only [scanLoop, h]
    rw [scanLoop_stable k rest.length rest (by omega) (Nat.le_refl _)]

/-! ### The scanning loop of `AppendToChangelog` -/

theorem linesText_nil : linesText [] = [] := rfl

theorem linesText_cons (l : Str) (ls : List Str) :
    linesText (l :: ls) = l ++ ['\n'] ++ linesText ls := by
  simp [linesText]

theorem linesText_append (xs ys : List Str) :
    linesText (xs ++ ys) = linesText xs ++ linesText ys := by
  simp [linesText]

theorem foldl_mergeLine_read (ls : List Str) :
    ∀ b : Str, ls.foldl mergeLine { read := true, buf := b }
      = { read := true, buf := b ++ linesText ls } := by
  induction ls with
  | nil => intro b; simp [linesText]
  | cons l ls ih =>
    intro b
    simp only [List.foldl_cons, mergeLine, linesText_cons]
    simp only [Bool.true_eq_false, false_and, if_false, if_true]
    rw [ih]
    simp

theorem linesAfterMarker_cons_marker (ls : List Str) :
    linesAfterMarker (marker :: ls) = ls := by
  simp [linesAfterMarker, List.dropWhile_cons]

theorem linesAfterMarker_cons_ne (l : Str) (ls : List Str) (h : l ≠ marker) :
    linesAfterMarker (l :: ls) = linesAfterMarker ls := by
  simp [linesAfterMarker, List.dropWhile_cons, h]

theorem linesAfterMarker_of_not_mem (ls : List Str) (h : marker ∉ ls) :
    linesAfterMarker ls = [] := by
  induction ls with
  | nil => rfl
  | cons l ls ih =>
    have hl : l ≠ marker := fun e => h (e ▸ List.mem_cons_self _ _)
    rw [linesAfterMarker_cons_ne l ls hl]
    exact ih (fun hm => h (List.mem_cons_of_mem _ hm))

theorem linesAfterMarker_append (pre post : List Str) (h : marker ∉ pre) :
    linesAfterMarker (pre ++ marker :: post) = post := by
  induction pre with
  | nil => exact linesAfterMarker_cons_marker post
  | cons l ls ih =>
    have hl : l ≠ marker := fun e => h (e ▸ List.mem_cons_self _ _)
    rw [List.cons_append, linesAfterMarker_cons_ne l _ hl]
    exact ih (fun hm => h (List.mem_cons_of_mem _ hm))

/-- The buffer after the loop holds the lines behind the first marker line, each followed
by a newline. -/
theorem foldl_mergeLine_buf (ls : List Str) :
    ∀ b : Str, (ls.foldl mergeLine { read := false, buf := b }).buf
      = b ++ linesText (linesAfterMarker ls) := by
  induction ls with
  | nil => intro b; simp [linesAfterMarker, linesText]
  | cons l ls ih =>
    intro b
    by_cases hl : l = marker
    · subst hl
      simp only [List.foldl_cons, mergeLine, and_self, if_true]
      rw [foldl_mergeLine_read, linesAfterMarker_cons_marker]
    · simp only [List.foldl_cons, mergeLine, hl, and_false, if_false, Bool.false_eq_true]
      rw [ih, linesAfterMarker_cons_ne l ls hl]

theorem changelogTail_eq (doc : Str) :
    changelogTail doc = linesText (linesAfterMarker (scanLines doc)) := by
  simp [changelogTail, foldl_mergeLine_buf]

/-! ### Texts built from lines -/

theorem takeWhile_line (l rest : Str) (h : '\n' ∉ l) :
    (l ++ '\n' :: rest).takeWhile (· ≠ '\n') = l := by
  rw [List.takeWhile_append_of_pos]
  · simp [List.takeWhile_cons]
  · intro a ha
    have : a ≠ '\n' := fun e => h (e ▸ ha)
    simpa using this

theorem dropWhile_line (l rest : Str) (h : '\n' ∉ l) :
    (l ++ '\n' :: rest).dropWhile (· ≠ '\n') = '\n' :: rest := by
  rw [List.dropWhile_append_of_pos]
  · simp [List.dropWhile_cons]
  · intro a ha
    have : a ≠ '\n' := fun e => h (e ▸ ha)
    simpa using this

theorem rawLines_line (l rest : Str) (h : '\n' ∉ l) :
    rawLines (l ++ '\n' :: rest) = l :: rawLines rest := by
  rw [rawLines_eq_cons _ (by simp), takeWhile_line l rest h, dropWhile_line l rest h]
  rfl

theorem dropCR_of_getLast (l : Str) (h : l.getLast? ≠ some '\r') : dropCR l = l := by
  simp [dropCR, h]

theorem dropCR_of_not_mem (l : Str) (h : '\r' ∉ l) : dropCR l = l := by
  apply dropCR_of_getLast
  intro hl
  obtain ⟨ys, hys⟩ := List.getLast?_eq_some_iff.mp hl
  exact h (by rw [hys]; simp)

theorem length_le_byteLen (l : Str) : l.length ≤ byteLen l := by
  induction l with
  | nil => simp [byteLen]
  | cons c cs ih =>
    have hc : 0 < c.utf8Size := Char.utf8Size_pos c
    simp only [byteLen, List.length_cons]
    omega

theorem scan_line (l rest : Str) (h : '\n' ∉ l) (hb : byteLen l < maxScanTokenSize) :
    scan (l ++ '\n' :: rest) = some (dropCR l, rest) := by
  have h1 := scan_of_bounded (l ++ '\n' :: rest) (by simp)
    (by rw [takeWhile_line l rest h]; exact hb)
  rw [h1, takeWhile_line l rest h, dropWhile_line l rest h]
  rfl

theorem scan_line_tooLong (l rest : Str) (h : '\n' ∉ l) (hb : maxScanTokenSize ≤ byteLen l) :
    scan (l ++ '\n' :: rest) = none :=
  scan_of_tooLong _ (by rw [takeWhile_line l rest h]; exact hb)

theorem newline_not_mem_longLine : '\n' ∉ longLine := by
  simp [longLine, List.mem_replicate]

theorem scanLines_longLineDoc : scanLines longLineDoc = [marker] := by
  have h1 : scan longLineDoc = some (marker, longLine ++ ['\n']) :=
    scan_line marker (longLine ++ ['\n']) (by decide) (by decide)
  have h2 : scan (longLine ++ ['\n']) = none :=
    scan_line_tooLong longLine [] newline_not_mem_longLine
      (by
        have := length_le_byteLen longLine
        simpa [longLine] using this)
  rw [scanLines_of_scan_some _ _ _ h1, scanLines_of_scan_none _ h2]

theorem textLines_longLineDoc : textLines longLineDoc = [marker, longLine] := by
  have hm : dropCR marker = marker := by decide
  have hl : dropCR longLine = longLine :=
    dropCR_of_not_mem _ (by simp [longLine, List.mem_replicate])
  have h2 : rawLines (longLine ++ ['\n']) = [longLine] := by
    rw [rawLines_line longLine [] newline_not_mem_longLine]
    rfl
  simp only [textLines, longLineDoc]
  rw [rawLines_line marker _ (by decide), h2]
  simp [hm, hl]

theorem rawLines_eq_nil (s : Str) (h : rawLines s = []) : s = [] := by
  cases s with
  | nil => rfl
  | cons c cs =>
    by_cases hc : c = '\n'
    · simp [rawLines, hc] at h
    · simp only [rawLines, hc, if_false] at h
      split at h <;> simp at h

theorem terminated_tail (c : Char) (cs : Str) (h : (c :: cs).getLast? = some '\n')
    (hcs : cs ≠ []) : cs.getLast? = some '\n' := by
  cases cs with
  | nil => exact absurd rfl hcs
  | cons d ds => rwa [List.getLast?_cons_cons] at h

theorem terminated_tail_or (c : Char) (cs : Str)
    (h : c :: cs = [] ∨ (c :: cs).getLast? = some '\n') :
    cs = [] ∨ cs.getLast? = some '\n' := by
  rcases h with h | h
  · exact absurd h (by simp)
  · by_cases hcs : cs = []
    · exact Or.inl hcs
    · exact Or.inr (terminated_tail c cs h hcs)

theorem terminated_tail_ne (c : Char) (cs : Str)
    (h : c :: cs = [] ∨ (c :: cs).getLast? = some '\n') (hc : c ≠ '\n') : cs ≠ [] := by
  rcases h with h | h
  · exact absurd h (by simp)
  · intro hcs
    subst hcs
    simp at h
    exact hc h

/-- A text that ends with a newline is the concatenation of its lines, each followed by a
newline. -/
theorem linesText_rawLines (a : Str) (ha : a = [] ∨ a.getLast? = some '\n') :
    linesText (rawLines a) = a := by
  induction a with
  | nil => rfl
  | cons c cs ih =>
    have ih2 := ih (terminated_tail_or c cs ha)
    by_cases hc : c = '\n'
    · simp only [rawLines, hc, if_true, linesText_cons, ih2]
      rfl
    · have hne := terminated_tail_ne c cs ha hc
      simp only [rawLines, hc, if_false]
      cases hr : rawLines cs with
      | nil => exact absurd (rawLines_eq_nil cs hr) hne
      | cons l ls =>
        rw [hr] at ih2
        simp only [linesText_cons] at ih2 ⊢
        rw [← ih2]
        simp

theorem rawLines_append (a b : Str) (ha : a = [] ∨ a.getLast? = some '\n') :
    rawLines (a ++ b) = rawLines a ++ rawLines b := by
  induction a with
  | nil => rfl
  | cons c cs ih =>
    have ih2 := ih (terminated_tail_or c cs ha)
    by_cases hc : c = '\n'
    · rw [List.cons_append]
      simp only [rawLines, hc, if_true]
      rw [ih2]
      rfl
    · have hne := terminated_tail_ne c cs ha hc
      rw [List.cons_append]
      simp only [rawLines, hc, if_false]
      rw [ih2]
      cases hr : rawLines cs with
      | nil => exact absurd (rawLines_eq_nil cs hr) hne
      | cons l ls => rfl

theorem map_dropCR_of_getLast (ls : List Str) (h : ∀ l ∈ ls, l.getLast? ≠ some '\r') :
    ls.map dropCR = ls := by
  induction ls with
  | nil => rfl
  | cons l ls ih =>
    simp only [List.map_cons]
    rw [dropCR_of_getLast l (h l (List.mem_cons_self _ _)),
      ih (fun x hx => h x (List.mem_cons_of_mem _ hx))]

theorem textLines_append (a b : Str) (ha : a = [] ∨ a.getLast? = some '\n') :
    textLines (a ++ b) = textLines a ++ textLines b := by
  simp [textLines, rawLines_append a b ha]

theorem textLines_line (l rest : Str) (h : '\n' ∉ l) :
    textLines (l ++ '\n' :: rest) = dropCR l :: textLines rest := by
  simp [textLines, rawLines_line l rest h]

theorem byteLen_append (a b : Str) : byteLen (a ++ b) = byteLen a + byteLen b := by
  induction a with
  | nil => simp [byteLen]
  | cons c cs ih =>
    rw [List.cons_append]
    simp only [byteLen]
    rw [ih]
    omega

theorem byteLen_dropCR_le (l : Str) : byteLen (dropCR l) ≤ byteLen l := by
  unfold dropCR
  split
  · rename_i h
    obtain ⟨ys, hys⟩ := List.getLast?_eq_some_iff.mp h
    rw [hys, List.dropLast_concat, byteLen_append]
    omega
  · exact Nat.le_refl _

theorem newline_not_mem_dropCR (l : Str) (h : '\n' ∉ l) : '\n' ∉ dropCR l := by
  unfold dropCR
  split
  · exact fun hm => h (List.mem_of_mem_dropLast hm)
  · exact h

theorem newline_not_mem_takeWhile (s : Str) : '\n' ∉ s.takeWhile (· ≠ '\n') := by
  intro h
  have := List.mem_takeWhile_imp h
  simp at this

/-- Every token of the scanner is free of newlines and shorter than the buffer. -/
theorem scanLoop_token (fuel : Nat) :
    ∀ input : Str, ∀ t ∈ scanLoop fuel input, '\n' ∉ t ∧ byteLen t < maxScanTokenSize := by
  induction fuel with
  | zero => intro input t ht; simp [scanLoop] at ht
  | succ n ih =>
    intro input t ht
    by_cases h : input = []
    · subst h
      simp [scanLoop, scan_nil] at ht
    · by_cases hb : byteLen (input.takeWhile (· ≠ '\n')) < maxScanTokenSize
      · simp only [scanLoop, scan_of_bounded input h hb, List.mem_cons] at ht
        rcases ht with ht | ht
        · subst ht
          exact ⟨newline_not_mem_dropCR _ (newline_not_mem_takeWhile input),
            Nat.lt_of_le_of_lt (byteLen_dropCR_le _) hb⟩
        · exact ih _ t ht
      · simp [scanLoop, scan_of_tooLong input (Nat.not_lt.mp hb)] at ht

theorem linesAfterMarker_subset (ls : List Str) : ∀ l ∈ linesAfterMarker ls, l ∈ ls := by
  intro l hl
  exact (List.dropWhile_sublist _).subset (List.mem_of_mem_drop hl)

theorem rawLines_linesText (ls : List Str) (h : ∀ l ∈ ls, '\n' ∉ l) :
    rawLines (linesText ls) = ls := by
  induction ls with
  | nil => rfl
  | cons l ls ih =>
    rw [linesText_cons, List.append_assoc, List.singleton_append,
      rawLines_line l _ (h l (List.mem_cons_self _ _)),
      ih (fun x hx => h x (List.mem_cons_of_mem _ hx))]

theorem linesText_terminated (ls : List Str) :
    linesText ls = [] ∨ (linesText ls).getLast? = some '\n' := by
  induction ls using List.reverseRecOn with
  | nil => exact Or.inl rfl
  | append_singleton xs x _ =>
    right
    rw [linesText_append, linesText_cons, linesText_nil]
    simp [List.getLast?_append]

/-- The lines of the tail carried over are tokens of the scanner. -/
theorem rawLines_changelogTail (d : Str) :
    rawLines (changelogTail d) = linesAfterMarker (scanLines d) := by
  rw [changelogTail_eq]
  apply rawLines_linesText
  intro l hl
  exact (scanLoop_token _ d l (linesAfterMarker_subset _ l hl)).1

theorem changelogTail_terminated (d : Str) :
    changelogTail d = [] ∨ (changelogTail d).getLast? = some '\n' := by
  rw [changelogTail_eq]
  exact linesText_terminated _

theorem changelogTail_bounded (d : Str) :
    ∀ l ∈ rawLines (changelogTail d), byteLen l < maxScanTokenSize := by
  intro l hl
  rw [rawLines_changelogTail] at hl
  exact (scanLoop_token _ d l (linesAfterMarker_subset _ l hl)).2

/-- The tail of a document whose lines fit the buffer, in terms of the lines of the text. -/
theorem changelogTail_of_lines (doc : Str) (pre post : List Str)
    (hlines : textLines doc = pre ++ marker :: post) (hfirst : marker ∉ pre)
    (hsize : ∀ l ∈ rawLines doc, byteLen l < maxScanTokenSize) :
    changelogTail doc = linesText post := by
  rw [changelogTail_eq, scanLines_eq_textLines doc hsize, hlines,
    linesAfterMarker_append pre post hfirst]

/-- The tail of a document given by the text before the marker line, the marker line and
the text behind it. -/
theorem changelogTail_of_parts (pre m rest : Str)
    (hpre : pre = [] ∨ pre.getLast? = some '\n')
    (hfirst : marker ∉ textLines pre)
    (hm : m = marker ∨ m = marker ++ ['\r'])
    (hterm : rest = [] ∨ rest.getLast? = some '\n')
    (hcr : ∀ l ∈ rawLines rest, l.getLast? ≠ some '\r')
    (hsize : ∀ l ∈ rawLines (pre ++ m ++ '\n' :: rest), byteLen l < maxScanTokenSize) :
    changelogTail (pre ++ m ++ '\n' :: rest) = rest := by
  have hmn : '\n' ∉ m := by
    rcases hm with h | h <;> subst h <;> decide
  have hmd : dropCR m = marker := by
    rcases hm with h | h <;> subst h <;> decide
  have hl : textLines (pre ++ m ++ '\n' :: rest) = textLines pre ++ marker :: textLines rest := by
    rw [List.append_assoc, textLines_append pre _ hpre, textLines_line m rest hmn, hmd]
  rw [changelogTail_of_lines _ _ _ hl hfirst hsize]
  simp only [textLines]
  rw [map_dropCR_of_getLast _ hcr, linesText_rawLines rest hterm]

theorem scanLines_line (l rest : Str) (h : '\n' ∉ l) (hb : byteLen l < maxScanTokenSize) :
    scanLines (l ++ '\n' :: rest) = dropCR l :: scanLines rest :=
  scanLines_of_scan_some _ _ _ (scan_line l rest h hb)

/-- The document written, cut at its heading: the two lines before the heading, the
heading, and the text behind it. -/
theorem AppendToChangelog_parts (d a : Str) :
    AppendToChangelog d a
      = (headerLead ++ ['\n', '\n']) ++ marker ++ '\n' :: ('\n' :: (a ++ changelogTail d)) := by
  have hh : header = (headerLead ++ ['\n', '\n']) ++ marker ++ ['\n'] := by decide
  unfold AppendToChangelog
  rw [hh]
  simp only [List.append_assoc, List.cons_append, List.nil_append, List.singleton_append]

theorem textLines_merged (d a : Str) :
    textLines (AppendToChangelog d a)
      = [headerLead, [], marker] ++ textLines ('\n' :: (a ++ changelogTail d)) := by
  rw [AppendToChangelog_parts, List.append_assoc,
    textLines_append (headerLead ++ ['\n', '\n']) _ (Or.inr (by decide)),
    textLines_line marker _ (by decide)]
  have h1 : textLines (headerLead ++ ['\n', '\n']) = [headerLead, []] := by decide
  have h2 : dropCR marker = marker := by decide
  rw [h1, h2]
  rfl

theorem scanLines_merged (d a : Str) :
    scanLines (AppendToChangelog d a)
      = [headerLead, [], marker] ++ scanLines ('\n' :: (a ++ changelogTail d)) := by
  have e : AppendToChangelog d a
      = headerLead ++ '\n' :: ([] ++ '\n' :: (marker ++ '\n' ::
          ('\n' :: (a ++ changelogTail d)))) := by
    rw [AppendToChangelog_parts]
    simp only [List.append_assoc, List.cons_append, List.nil_append, List.singleton_append]
  rw [e, scanLines_line headerLead _ (by decide) (by decide),
    scanLines_line [] _ (by decide) (by decide),
    scanLines_line marker _ (by decide) (by decide)]
  have h1 : dropCR headerLead = headerLead := by decide
  have h2 : dropCR marker = marker := by decide
  have h3 : dropCR [] = [] := by decide
  rw [h1, h2, h3]
  rfl

/-- Merging into a document written by an earlier merge keeps the earlier fragment and
tail. -/
theorem changelogTail_merged (d a : Str) (ha : a.getLast? = some '\n')
    (hacr : ∀ l ∈ rawLines a, l.getLast? ≠ some '\r')
    (hasize : ∀ l ∈ rawLines a, byteLen l < maxScanTokenSize)
    (htcr : ∀ l ∈ rawLines (changelogTail d), l.getLast? ≠ some '\r') :
    changelogTail (AppendToChangelog d a) = '\n' :: (a ++ changelogTail d) := by
  have hrest : rawLines ('\n' :: (a ++ changelogTail d))
      = [] :: (rawLines a ++ rawLines (changelogTail d)) := by
    rw [← rawLines_append a _ (Or.inr ha)]
    simp [rawLines]
  rw [AppendToChangelog_parts]
  apply changelogTail_of_parts _ marker _ (Or.inr (by decide)) (by decide) (Or.inl rfl)
  · right
    rcases changelogTail_terminated d with ht | ht
    · rw [ht, List.append_nil]
      cases a with
      | nil => simp at ha
      | cons c cs => rw [List.getLast?_cons_cons]; exact ha
    · cases hT : changelogTail d with
      | nil => rw [hT] at ht; simp at ht
      | cons t ts =>
        rw [hT] at ht
        rw [List.getLast?_cons, List.getLast?_append, ht]
        rfl
  · intro l hl
    rw [hrest] at hl
    simp only [List.mem_cons, List.mem_append] at hl
    rcases hl with hl | hl | hl
    · subst hl; simp
    · exact hacr l hl
    · exact htcr l hl
  · intro l hl
    rw [List.append_assoc, rawLines_append _ _ (Or.inr (by decide)),
      rawLines_line marker _ (by decide), hrest] at hl
    simp only [List.mem_cons, List.mem_append] at hl
    rcases hl with hl | hl | hl | hl | hl
    · have hp : ∀ x ∈ rawLines (headerLead ++ ['\n', '\n']),
          byteLen x < maxScanTokenSize := by decide
      exact hp l hl
    · subst hl; decide
    · subst hl; decide
    · exact hasize l hl
    · exact changelogTail_bounded d l hl

/-! ### Claims on `AppendToChangelog` -/

/-- C1 (as amended): for every document whose lines all fit the buffer of the scanner
(fewer than 65536 bytes each) and whose first line equal to `# Changelog` comes behind the
lines `pre`, and for every fragment, the document written is exactly the fixed header, a
blank line, the fragment and then every line behind that first marker line (later marker
lines included), in order, each followed by a newline; the lines up to and including the
first marker are gone. -/
theorem AppendToChangelog_after_marker (doc frag : Str) (pre post : List Str)
    (hlines : textLines doc = pre ++ marker :: post) (hfirst : marker ∉ pre)
    (hsize : ∀ l ∈ rawLines doc, byteLen l < maxScanTokenSize) :
    AppendToChangelog doc frag
      = "<!-- markdownlint-disable MD024 -->\n\n# Changelog\n".toList ++ ['\n'] ++ frag
          ++ linesText post := by
  unfold AppendToChangelog
  rw [changelogTail_eq, scanLines_eq_textLines doc hsize, hlines,
    linesAfterMarker_append pre post hfirst]
  rfl

/-- C1, witness: the document `# Changelog\nold line\n` merged with the fragment
`new line\n`. -/
theorem AppendToChangelog_after_marker_witness :
    AppendToChangelog "# Changelog\nold line\n".toList "new line\n".toList
      = "<!-- markdownlint-disable MD024 -->\n\n# Changelog\n".toList ++ ['\n']
          ++ "new line\n".toList ++ linesText ["old line".toList] :=
  AppendToChangelog_after_marker "# Changelog\nold line\n".toList "new line\n".toList
    [] ["old line".toList] (by decide) (by decide) (by decide)

/-- C1, counterexample: in `longLineDoc` the heading is the first line and one line of
65536 bytes follows it; the scanner stops at that line, its error is never looked at, and
the document written has an empty tail instead of the line behind the marker. -/
theorem AppendToChangelog_longLine_counterexample :
    textLines longLineDoc = [] ++ marker :: [longLine] ∧ marker ∉ ([] : List Str) ∧
      AppendToChangelog longLineDoc []
        ≠ "<!-- markdownlint-disable MD024 -->\n\n# Changelog\n".toList ++ ['\n'] ++ []
            ++ linesText [longLine] := by
  have htail : changelogTail longLineDoc = [] := by
    rw [changelogTail_eq, scanLines_longLineDoc, linesAfterMarker_cons_marker]
    rfl
  refine ⟨textLines_longLineDoc, List.not_mem_nil _, ?_⟩
  intro h
  unfold AppendToChangelog at h
  rw [htail, linesText_cons, linesText_nil] at h
  have h2 : ([] : Str) = longLine ++ ['\n'] ++ [] :=
    @List.append_cancel_left _ (header ++ ['\n'] ++ []) _ _ h
  simp at h2

/-- C2 (as amended): for every document without a line equal to `# Changelog` the tail is
empty: the document written is exactly the fixed header, a blank line and the fragment,
and the content of the original document is not carried over. -/
theorem AppendToChangelog_no_marker (doc frag : Str) (hno : marker ∉ textLines doc) :
    AppendToChangelog doc frag
      = "<!-- markdownlint-disable MD024 -->\n\n# Changelog\n".toList ++ ['\n'] ++ frag := by
  have hno2 : marker ∉ scanLines doc := fun hm => hno ((scanLines_initial doc).subset hm)
  unfold AppendToChangelog
  rw [changelogTail_eq, linesAfterMarker_of_not_mem _ hno2]
  simp [linesText, header]

/-- C2, witness: the document `old line\n` has no marker line. -/
theorem AppendToChangelog_no_marker_witness :
    marker ∉ textLines "old line\n".toList ∧
      AppendToChangelog "old line\n".toList "new line\n".toList
        = "<!-- markdownlint-disable MD024 -->\n\n# Changelog\n".toList ++ ['\n']
            ++ "new line\n".toList :=
  ⟨by decide, AppendToChangelog_no_marker _ _ (by decide)⟩

/-- C2, counterexample: the document `old line\n` has no marker line, and the document
written for it does not end with its lines: the original content is lost. -/
theorem AppendToChangelog_no_marker_counterexample :
    marker ∉ textLines "old line\n".toList ∧
      AppendToChangelog "old line\n".toList "new line\n".toList
        ≠ "<!-- markdownlint-disable MD024 -->\n\n# Changelog\n".toList ++ ['\n']
            ++ "new line\n".toList ++ linesText (textLines "old line\n".toList) := by
  decide

/-- C3 (as amended): for every document made of a text `pre` of complete lines without a
marker line, the marker line `m` (`# Changelog`, with or without a carriage return before
its newline) and the text `rest` behind it, where `rest` is empty or ends with a newline,
no line of `rest` ends with a carriage return, and every line of the document has fewer
than 65536 bytes: the document written is the fixed header, a blank line, the fragment and
then `rest`, so `rest` is byte for byte the final part of the document written. -/
theorem AppendToChangelog_tail_preserved (pre m rest frag : Str)
    (hpre : pre = [] ∨ pre.getLast? = some '\n')
    (hfirst : marker ∉ textLines pre)
    (hm : m = marker ∨ m = marker ++ ['\r'])
    (hterm : rest = [] ∨ rest.getLast? = some '\n')
    (hcr : ∀ l ∈ rawLines rest, l.getLast? ≠ some '\r')
    (hsize : ∀ l ∈ rawLines (pre ++ m ++ '\n' :: rest), byteLen l < maxScanTokenSize) :
    AppendToChangelog (pre ++ m ++ '\n' :: rest) frag
        = "<!-- markdownlint-disable MD024 -->\n\n# Changelog\n".toList ++ ['\n'] ++ frag ++ rest
      ∧ rest <:+ AppendToChangelog (pre ++ m ++ '\n' :: rest) frag := by
  have h : AppendToChangelog (pre ++ m ++ '\n' :: rest) frag
      = "<!-- markdownlint-disable MD024 -->\n\n# Changelog\n".toList ++ ['\n'] ++ frag
          ++ rest := by
    unfold AppendToChangelog
    rw [changelogTail_of_parts pre m rest hpre hfirst hm hterm hcr hsize]
    rfl
  refine ⟨h, ?_⟩
  rw [h]
  exact List.suffix_append _ _

/-- C3, witness: an older entry with two lines behind a title line and the heading. -/
theorem AppendToChangelog_tail_preserved_witness :
    AppendToChangelog ("title\n".toList ++ marker ++ '\n' :: "old line\n\nolder\n".toList)
        "new line\n".toList
        = "<!-- markdownlint-disable MD024 -->\n\n# Changelog\n".toList ++ ['\n']
            ++ "new line\n".toList ++ "old line\n\nolder\n".toList
      ∧ "old line\n\nolder\n".toList
          <:+ AppendToChangelog
            ("title\n".toList ++ marker ++ '\n' :: "old line\n\nolder\n".toList)
            "new line\n".toList :=
  AppendToChangelog_tail_preserved "title\n".toList marker "old line\n\nolder\n".toList
    "new line\n".toList (by decide) (by decide) (by decide) (by decide) (by decide) (by decide)

/-- C3, counterexample: behind the heading the document holds `old line` without a final
newline; the document written ends with `old line` and a newline, so the bytes behind the
marker line are not its final part. -/
theorem AppendToChangelog_tail_counterexample :
    ¬ ("old line".toList
        <:+ AppendToChangelog ([] ++ marker ++ '\n' :: "old line".toList) []) := by
  decide

/-- C4 (as amended): for every document `d` and fragment `a` the first three lines of the
document written are the comment line, an empty line and the heading, for the lines of
the text and for the tokens of the scanner alike, so the first line equal to `# Changelog`
is the third one; and for every fragment `a` that ends with a newline and has no line
ending with a carriage return nor a line of 65536 bytes or more, every document `d` whose
tail has no line ending with a carriage return, and every fragment `b`, merging `b` into
the merge of `d` and `a` writes the fixed header, a blank line, `b`, a blank line, `a` and
the tail of `d`, unchanged and in that order. -/
theorem AppendToChangelog_append_once (d a : Str) :
    (textLines (AppendToChangelog d a)).take 3
        = ["<!-- markdownlint-disable MD024 -->".toList, [], "# Changelog".toList]
      ∧ (scanLines (AppendToChangelog d a)).take 3
        = ["<!-- markdownlint-disable MD024 -->".toList, [], "# Changelog".toList]
      ∧ ∀ b : Str, a.getLast? = some '\n' →
          (∀ l ∈ rawLines a, l.getLast? ≠ some '\r' ∧ byteLen l < maxScanTokenSize) →
          (∀ l ∈ rawLines (changelogTail d), l.getLast? ≠ some '\r') →
          AppendToChangelog (AppendToChangelog d a) b
              = "<!-- markdownlint-disable MD024 -->\n\n# Changelog\n".toList ++ ['\n'] ++ b
                  ++ (['\n'] ++ a ++ changelogTail d)
            ∧ (a ++ changelogTail d) <:+ AppendToChangelog (AppendToChangelog d a) b := by
  refine ⟨?_, ?_, ?_⟩
  · rw [textLines_merged]
    rfl
  · rw [scanLines_merged]
    rfl
  · intro b ha hal htcr
    have h : AppendToChangelog (AppendToChangelog d a) b
        = "<!-- markdownlint-disable MD024 -->\n\n# Changelog\n".toList ++ ['\n'] ++ b
            ++ (['\n'] ++ a ++ changelogTail d) := by
      have ht := changelogTail_merged d a ha (fun l hl => (hal l hl).1)
        (fun l hl => (hal l hl).2) htcr
      unfold AppendToChangelog at ht ⊢
      rw [ht]
      rfl
    refine ⟨h, ?_⟩
    rw [h]
    exact ⟨"<!-- markdownlint-disable MD024 -->\n\n# Changelog\n".toList ++ ['\n'] ++ b
      ++ ['\n'], by simp only [List.append_assoc]⟩

/-- C4, witness: two merges into the document `# Changelog\nold line\n`. -/
theorem AppendToChangelog_append_once_witness :
    AppendToChangelog
        (AppendToChangelog "# Changelog\nold line\n".toList "first\n".toList) "second\n".toList
      = "<!-- markdownlint-disable MD024 -->\n\n# Changelog\n".toList ++ ['\n']
          ++ "second\n".toList
          ++ (['\n'] ++ "first\n".toList ++ changelogTail "# Changelog\nold line\n".toList) :=
  ((AppendToChangelog_append_once "# Changelog\nold line\n".toList "first\n".toList).2.2
    "second\n".toList (by decide) (by decide) (by decide)).1

/-- C4, counterexample: the fragment `x\r\n` ends with a newline; after a second merge
its line comes back as `x\n`, so the document written no longer ends with the fragment
followed by the tail. -/
theorem AppendToChangelog_append_once_counterexample :
    "x\r\n".toList.getLast? = some '\n' ∧ "y\n".toList.getLast? = some '\n' ∧
      ¬ ("x\r\n".toList ++ changelogTail []
          <:+ AppendToChangelog (AppendToChangelog [] "x\r\n".toList) "y\n".toList) := by
  decide

/-! ### Claims on `CreateCommitGroups` -/

theorem foldl_groupCommit (commits : List Commit) :
    ∀ (tf tb : Str) (f b : List Commit),
      commits.foldl groupCommit
          { featGroup := { Title := tf, Commits := f }, bugGroup := { Title := tb, Commits := b } }
        = { featGroup :=
              { Title := tf, Commits := f ++ commits.filter (fun c => c.Type_ = "feat".toList) },
            bugGroup :=
              { Title := tb, Commits := b ++ commits.filter (fun c => c.Type_ = "fix".toList) } } := by
  induction commits with
  | nil => intro tf tb f b; simp
  | cons c cs ih =>
    intro tf tb f b
    rw [List.foldl_cons]
    by_cases h1 : c.Type_ = "fix".toList
    · have h2 : c.Type_ ≠ "feat".toList := by rw [h1]; decide
      simp only [groupCommit, h1, if_true]
      rw [ih]
      simp [List.filter_cons, h1]
    · by_cases h2 : c.Type_ = "feat".toList
      · simp only [groupCommit, h1, h2, if_true, if_false]
        rw [ih]
        simp [List.filter_cons, h2]
      · simp only [groupCommit, h1, h2, if_false]
        rw [ih]
        have h1b : ¬ c.Type_ = ['f', 'i', 'x'] := h1
        have h2b : ¬ c.Type_ = ['f', 'e', 'a', 't'] := h2
        simp [List.filter_cons, h1b, h2b]

/-- The two groups are the filters of the input by type. -/
theorem CreateCommitGroups_eq (commits : List Commit) :
    CreateCommitGroups commits
      = [{ Title := "Bugfixes".toList,
           Commits := commits.filter (fun c => c.Type_ = "fix".toList) },
         { Title := "Features".toList,
           Commits := commits.filter (fun c => c.Type_ = "feat".toList) }] := by
  simp [CreateCommitGroups, foldl_groupCommit]

/-- C5: for every sequence of commits the group `Bugfixes` holds exactly the commits of
type `fix` and the group `Features` exactly the commits of type `feat`, each as the
order-preserving filter of the input; hence every commit of a group has the type of the
group, and each group is a subsequence of the input, so no commit is duplicated. -/
theorem CreateCommitGroups_filter (commits : List Commit) :
    ∃ bug feat : List Commit,
      CreateCommitGroups commits
          = [{ Title := "Bugfixes".toList, Commits := bug },
             { Title := "Features".toList, Commits := feat }]
        ∧ bug = commits.filter (fun c => c.Type_ = "fix".toList)
        ∧ feat = commits.filter (fun c => c.Type_ = "feat".toList)
        ∧ (∀ c ∈ bug, c.Type_ = "fix".toList)
        ∧ (∀ c ∈ feat, c.Type_ = "feat".toList)
        ∧ bug.Sublist commits ∧ feat.Sublist commits := by
  refine ⟨_, _, CreateCommitGroups_eq commits, rfl, rfl, ?_, ?_,
    List.filter_sublist _, List.filter_sublist _⟩
  · intro c hc
    simpa using (List.mem_filter.mp hc).2
  · intro c hc
    simpa using (List.mem_filter.mp hc).2

/-- C6: for every sequence of commits the result has exactly two groups, titled
`Bugfixes` then `Features`; a group for whose type the input has no commit is emitted
with an empty list, and for the empty input both are. -/
theorem CreateCommitGroups_titles (commits : List Commit) :
    (CreateCommitGroups commits).length = 2
      ∧ (CreateCommitGroups commits).map (fun g => g.Title)
          = ["Bugfixes".toList, "Features".toList]
      ∧ ((∀ c ∈ commits, c.Type_ ≠ "fix".toList) →
          (CreateCommitGroups commits)[0]?.map (fun g => g.Commits) = some [])
      ∧ ((∀ c ∈ commits, c.Type_ ≠ "feat".toList) →
          (CreateCommitGroups commits)[1]?.map (fun g => g.Commits) = some [])
      ∧ CreateCommitGroups []
          = [{ Title := "Bugfixes".toList, Commits := [] },
             { Title := "Features".toList, Commits := [] }] := by
  rw [CreateCommitGroups_eq]
  refine ⟨rfl, rfl, ?_, ?_, rfl⟩
  · intro h
    have : commits.filter (fun c => c.Type_ = "fix".toList) = [] := by
      rw [List.filter_eq_nil_iff]
      intro c hc
      simpa using h c hc
    rw [this]
    rfl
  · intro h
    have : commits.filter (fun c => c.Type_ = "feat".toList) = [] := by
      rw [List.filter_eq_nil_iff]
      intro c hc
      simpa using h c hc
    rw [this]
    rfl

/-- C6, witness: a sequence with one commit of another type. -/
theorem CreateCommitGroups_titles_witness :
    (CreateCommitGroups [{ Commit.zero with Type_ := "docs".toList }])[0]?.map
        (fun g => g.Commits) = some []
      ∧ (CreateCommitGroups [{ Commit.zero with Type_ := "docs".toList }])[1]?.map
        (fun g => g.Commits) = some [] :=
  ⟨(CreateCommitGroups_titles [{ Commit.zero with Type_ := "docs".toList }]).2.2.1
      (by decide),
   (CreateCommitGroups_titles [{ Commit.zero with Type_ := "docs".toList }]).2.2.2.1
      (by decide)⟩

/-- C7: a commit whose type is neither `fix` nor `feat` (the empty type included) is
invisible to grouping: with it or without it, anywhere in the sequence, the groups are
the same, and it is in no group. -/
theorem CreateCommitGroups_other_type (xs ys : List Commit) (c : Commit)
    (hfix : c.Type_ ≠ "fix".toList) (hfeat : c.Type_ ≠ "feat".toList) :
    CreateCommitGroups (xs ++ [c] ++ ys) = CreateCommitGroups (xs ++ ys)
      ∧ ∀ g ∈ CreateCommitGroups (xs ++ [c] ++ ys), c ∉ g.Commits := by
  constructor
  · rw [CreateCommitGroups_eq, CreateCommitGroups_eq]
    have h1b : ¬ c.Type_ = ['f', 'i', 'x'] := hfix
    have h2b : ¬ c.Type_ = ['f', 'e', 'a', 't'] := hfeat
    simp [List.filter_append, List.filter_cons, h1b, h2b]
  · intro g hg
    rw [CreateCommitGroups_eq] at hg
    simp only [List.mem_cons, List.mem_singleton, List.not_mem_nil, or_false] at hg
    rcases hg with hg | hg
    · subst hg
      intro hc
      have := (List.mem_filter.mp hc).2
      exact hfix (by simpa using this)
    · subst hg
      intro hc
      have := (List.mem_filter.mp hc).2
      exact hfeat (by simpa using this)

/-- C7, witness: a commit of type `docs` between a fix and a feature, and a commit with
the empty type. -/
theorem CreateCommitGroups_other_type_witness :
    CreateCommitGroups
        ([{ Commit.zero with Type_ := "fix".toList }]
          ++ [{ Commit.zero with Type_ := "docs".toList }]
          ++ [{ Commit.zero with Type_ := "feat".toList }])
      = CreateCommitGroups
        ([{ Commit.zero with Type_ := "fix".toList }]
          ++ [{ Commit.zero with Type_ := "feat".toList }])
      ∧ ∀ g ∈ CreateCommitGroups ([] ++ [Commit.zero] ++ []), Commit.zero ∉ g.Commits :=
  ⟨(CreateCommitGroups_other_type [{ Commit.zero with Type_ := "fix".toList }]
      [{ Commit.zero with Type_ := "feat".toList }]
      { Commit.zero with Type_ := "docs".toList } (by decide) (by decide)).1,
   (CreateCommitGroups_other_type [] [] Commit.zero (by decide) (by decide)).2⟩

/-! ### `strings.Index` and `strings.Split` for a separator of one character -/

theorem index_char (ch : Char) (s : Str) :
    strings.Index s [ch]
      = if ch ∈ s then some (s.takeWhile (· ≠ ch)).length else none := by
  induction s with
  | nil => simp [strings.Index]
  | cons c cs ih =>
    simp only [strings.Index, List.isPrefixOf]
    by_cases h : ch = c
    · subst h
      simp
    · have h2 : c ≠ ch := fun e => h e.symm
      simp only [ih, beq_iff_eq, h, Bool.and_true, Bool.false_eq_true, if_false,
        List.mem_cons, false_or]
      by_cases hm : ch ∈ cs
      · simp [hm, List.takeWhile_cons, h2]
      · simp [hm]

theorem take_takeWhile_length (p : Char → Bool) (s : Str) :
    s.take (s.takeWhile p).length = s.takeWhile p := by
  induction s with
  | nil => rfl
  | cons c cs ih =>
    simp only [List.takeWhile_cons]
    split <;> simp [ih]

theorem drop_takeWhile_length (p : Char → Bool) (s : Str) :
    s.drop (s.takeWhile p).length = s.dropWhile p := by
  induction s with
  | nil => rfl
  | cons c cs ih =>
    simp only [List.takeWhile_cons, List.dropWhile_cons]
    split <;> simp [ih]

theorem count_eq_dropWhile (ch : Char) (s : Str) (h : ch ∈ s) :
    s.count ch = ((s.dropWhile (· ≠ ch)).drop 1).count ch + 1 := by
  induction s with
  | nil => simp at h
  | cons c cs ih =>
    by_cases hc : c = ch
    · subst hc
      simp [List.dropWhile_cons]
    · have hm : ch ∈ cs := by
        rcases List.mem_cons.mp h with e | e
        · exact absurd e.symm hc
        · exact e
      simp [List.dropWhile_cons, hc, List.count_cons, ih hm]

theorem splitLoop_char_length (ch : Char) (fuel : Nat) :
    ∀ s : Str, s.length ≤ fuel → (strings.splitLoop fuel s [ch]).length = s.count ch + 1 := by
  induction fuel with
  | zero =>
    intro s hs
    have : s = [] := List.length_eq_zero.mp (Nat.le_zero.mp hs)
    subst this
    simp [strings.splitLoop]
  | succ n ih =>
    intro s hs
    simp only [strings.splitLoop, index_char]
    by_cases hm : ch ∈ s
    · simp only [hm, if_true, List.length_cons, List.length_nil, Nat.zero_add]
      have e : s.drop ((s.takeWhile (· ≠ ch)).length + 1) = (s.dropWhile (· ≠ ch)).drop 1 := by
        rw [← drop_takeWhile_length, List.drop_drop]
      rw [e, count_eq_dropWhile ch s hm]
      have hl : ((s.dropWhile (· ≠ ch)).drop 1).length ≤ n := by
        have h1 := length_dropWhile_le (· ≠ ch) s
        have h2 : 0 < s.length := List.length_pos_of_mem hm
        simp only [List.length_drop]
        omega
      rw [ih _ hl]
    · simp [hm, List.count_eq_zero_of_not_mem hm]

theorem Split_char_length (ch : Char) (s : Str) :
    (strings.Split s [ch]).length = s.count ch + 1 := by
  simp only [strings.Split, List.cons_ne_nil, if_false]
  exact splitLoop_char_length ch s.length s (Nat.le_refl _)

/-! ### `detectScope` returns -/

theorem slash_mem_dropWhile (l : Str) (h : l.dropWhile (· ≠ '/') ≠ []) :
    '/' ∈ l.dropWhile (· ≠ '/') := by
  induction l with
  | nil => simp at h
  | cons c cs ih =>
    by_cases hc : c = '/'
    · subst hc
      simp [List.dropWhile_cons]
    · simp only [List.dropWhile_cons, ne_eq, hc, not_false_eq_true, decide_True, if_true] at h ⊢
      exact ih h

theorem matchPluginPathAt_count (s m : Str) (h : matchPluginPathAt s = some m) :
    2 ≤ m.count '/' := by
  unfold matchPluginPathAt at h
  split at h
  · simp only [] at h
    split at h
    · exact absurd h (by simp)
    · rename_i hne
      simp only [Option.some.injEq] at h
      rw [← h, List.count_append]
      have h1 : pluginsSlash.count '/' = 1 := by decide
      have h2 : 0 < (List.reverse (List.dropWhile (· ≠ '/')
          (List.reverse (List.takeWhile (· ≠ '\n')
            (List.drop pluginsSlash.length s))))).count '/' := by
        rw [List.count_pos_iff, List.mem_reverse]
        apply slash_mem_dropWhile
        intro e
        apply hne
        rw [e]
        rfl
      omega
  · exact absurd h (by simp)

theorem findPluginPath_count (c : Str) (h : findPluginPath c ≠ []) :
    2 ≤ (findPluginPath c).count '/' := by
  induction c with
  | nil => exact absurd rfl h
  | cons x xs ih =>
    unfold findPluginPath at h ⊢
    cases hm : matchPluginPathAt (x :: xs) with
    | some m =>
      simp only [hm]
      exact matchPluginPathAt_count _ m hm
    | none =>
      simp only [hm] at h ⊢
      exact ih h

theorem detectScopeLoop_ok (files : List Str) : ∃ scope, detectScopeLoop files = .ok scope := by
  induction files with
  | nil => exact ⟨[], rfl⟩
  | cons c rest ih =>
    by_cases h : findPluginPath c = []
    · obtain ⟨scope, hs⟩ := ih
      exact ⟨scope, by simp [detectScopeLoop, h, hs]⟩
    · have hl : 3 ≤ (strings.Split (findPluginPath c) ['/']).length := by
        rw [Split_char_length]
        have := findPluginPath_count c h
        omega
      match hp : strings.Split (findPluginPath c) ['/'], hl with
      | p0 :: p1 :: p2 :: more, _ =>
        have hlt : ¬ (more.length + 1 + 1 + 1 < 3) := by omega
        exact ⟨p1 ++ ['.'] ++ p2, by simp [detectScopeLoop, h, hp, hlt]⟩

theorem detectScope_ok (diffTree : Str → Option Str) (hash : Str) :
    ∃ scope, detectScope diffTree hash = .ok scope := by
  unfold detectScope
  cases diffTree hash with
  | none => exact ⟨[], rfl⟩
  | some changedFiles =>
    by_cases h : changedFiles = []
    · exact ⟨[], by simp [h]⟩
    · obtain ⟨scope, hs⟩ := detectScopeLoop_ok (strings.Split changedFiles ['\n'])
      exact ⟨scope, by simp [h, hs]⟩

/-! ### The header expression -/

theorem all_ne_newline (r : Str) : (r.all (· ≠ '\n') = true) ↔ '\n' ∉ r := by
  rw [List.all_eq_true]
  constructor
  · intro h hm
    have := h _ hm
    simp at this
  · intro h x hx
    have : x ≠ '\n' := fun e => h (e ▸ hx)
    simpa using this

theorem matchRest_eq_some (tl r : Str) (h : matchRest tl = some r) :
    ∃ w : Char, isReSpace w = true ∧ '\n' ∉ r ∧ tl = ':' :: w :: r := by
  unfold matchRest at h
  split at h
  · rename_i w rest
    split at h
    · rename_i hc
      simp only [Option.some.injEq] at h
      subst h
      exact ⟨w, hc.1, (all_ne_newline _).mp hc.2, rfl⟩
    · exact absurd h (by simp)
  · exact absurd h (by simp)

theorem matchRest_colon (w : Char) (r : Str) (hw : isReSpace w = true) (hr : '\n' ∉ r) :
    matchRest (':' :: w :: r) = some r := by
  have h2 := (all_ne_newline r).mpr hr
  simp only [matchRest, hw, h2, and_self, if_true]

theorem takeWhile_until (p : Char → Bool) (t rest : Str) (x : Char)
    (ht : ∀ c ∈ t, p c = true) (hx : p x = false) :
    (t ++ x :: rest).takeWhile p = t := by
  rw [List.takeWhile_append_of_pos ht]
  simp [List.takeWhile_cons, hx]

theorem dropWhile_until (p : Char → Bool) (t rest : Str) (x : Char)
    (ht : ∀ c ∈ t, p c = true) (hx : p x = false) :
    (t ++ x :: rest).dropWhile p = x :: rest := by
  rw [List.dropWhile_append_of_pos ht]
  simp [List.dropWhile_cons, hx]

theorem reHeader_plain (t r : Str) (w : Char) (ht : ∀ c ∈ t, isWordChar c = true)
    (hw : isReSpace w = true) (hr : '\n' ∉ r) :
    reHeader (t ++ ':' :: w :: r) = some (t, [], r) := by
  unfold reHeader
  rw [takeWhile_until isWordChar t _ ':' ht (by decide),
    dropWhile_until isWordChar t _ ':' ht (by decide)]
  split
  · rename_i more heq
    simp at heq
  · simp only [matchRest_colon w r hw hr, Option.map_some']

theorem reHeader_scoped (t s r : Str) (w : Char) (ht : ∀ c ∈ t, isWordChar c = true)
    (hs : ∀ c ∈ s, isScopeChar c = true) (hw : isReSpace w = true) (hr : '\n' ∉ r) :
    reHeader (t ++ '(' :: (s ++ ')' :: ':' :: w :: r)) = some (t, s, r) := by
  unfold reHeader
  rw [takeWhile_until isWordChar t _ '(' ht (by decide),
    dropWhile_until isWordChar t _ '(' ht (by decide)]
  simp only [takeWhile_until isScopeChar s _ ')' hs (by decide),
    dropWhile_until isScopeChar s _ ')' hs (by decide),
    matchRest_colon w r hw hr, Option.map_some']

theorem reHeader_sound (v t s r : Str) (h : reHeader v = some (t, s, r)) :
    ∃ w : Char, (∀ c ∈ t, isWordChar c = true) ∧ (∀ c ∈ s, isScopeChar c = true)
      ∧ isReSpace w = true ∧ '\n' ∉ r
      ∧ ((s = [] ∧ v = t ++ ':' :: w :: r) ∨ v = t ++ '(' :: (s ++ ')' :: ':' :: w :: r)) := by
  have hv : v = v.takeWhile isWordChar ++ v.dropWhile isWordChar :=
    (List.takeWhile_append_dropWhile _ _).symm
  unfold reHeader at h
  simp only [] at h
  split at h
  · rename_i more hmore
    have hm : more = more.takeWhile isScopeChar ++ more.dropWhile isScopeChar :=
      (List.takeWhile_append_dropWhile _ _).symm
    split at h
    · rename_i tl htl
      cases hr : matchRest tl with
      | none => rw [hr] at h; exact absurd h (by simp)
      | some r2 =>
        rw [hr] at h
        simp only [Option.map_some', Option.some.injEq, Prod.mk.injEq] at h
        obtain ⟨h1, h2, h3⟩ := h
        subst h3
        obtain ⟨w, hw, hnl, htl2⟩ := matchRest_eq_some tl r2 hr
        refine ⟨w, ?_, ?_, hw, hnl, Or.inr ?_⟩
        · intro c hc
          rw [← h1] at hc
          exact List.mem_takeWhile_imp hc
        · intro c hc
          rw [← h2] at hc
          exact List.mem_takeWhile_imp hc
        · rw [← h1, ← h2, ← htl2, ← htl, ← hm, ← hmore]
          exact hv
    · exact absurd h (by simp)
  · rename_i after hafter
    cases hr : matchRest (v.dropWhile isWordChar) with
    | none => rw [hr] at h; exact absurd h (by simp)
    | some r2 =>
      rw [hr] at h
      simp only [Option.map_some', Option.some.injEq, Prod.mk.injEq] at h
      obtain ⟨h1, h2, h3⟩ := h
      subst h3
      obtain ⟨w, hw, hnl, htl2⟩ := matchRest_eq_some _ r2 hr
      refine ⟨w, ?_, ?_, hw, hnl, Or.inl ⟨h2.symm, ?_⟩⟩
      · intro c hc
        rw [← h1] at hc
        exact List.mem_takeWhile_imp hc
      · intro c hc
        rw [← h2] at hc
        simp at hc
      · rw [← h1, ← htl2]
        exact hv

/-- The header expression matches exactly the values of the conventional-commit grammar. -/
theorem reHeader_eq_none_iff (v : Str) : reHeader v = none ↔ ¬ matchesGrammar v := by
  constructor
  · intro h hg
    obtain ⟨t, s, r, w, ht, hs, hw, hr, hv | hv⟩ := hg
    · rw [hv, reHeader_plain t r w ht hw hr] at h
      exact absurd h (by simp)
    · rw [hv, reHeader_scoped t s r w ht hs hw hr] at h
      exact absurd h (by simp)
  · intro hg
    cases h : reHeader v with
    | none => rfl
    | some res =>
      obtain ⟨t, s, r⟩ := res
      obtain ⟨w, ht, hs, hw, hr, hv⟩ := reHeader_sound v t s r h
      exfalso
      apply hg
      rcases hv with ⟨_, hv⟩ | hv
      · exact ⟨t, s, r, w, ht, hs, hw, hr, Or.inl hv⟩
      · exact ⟨t, s, r, w, ht, hs, hw, hr, Or.inr hv⟩

/-! ### The token loop of `parseCommit` -/

theorem parseToken_of_colon (commit : Commit) (token : Str) (h : ':' ∈ token) :
    parseToken commit token = .ok (applyField commit token) := by
  have e : token.drop ((token.takeWhile (· ≠ ':')).length + 1)
      = (token.dropWhile (· ≠ ':')).drop 1 := by
    rw [← drop_takeWhile_length, List.drop_drop]
  unfold parseToken applyField fieldValue fieldName
  rw [index_char]
  simp only [h, if_true]
  rw [take_takeWhile_length, e]
  split
  · rfl
  · split
    · rfl
    · split
      · split <;> simp_all
      · rfl

theorem parseTokens_of_colon (tokens : List Str) :
    ∀ commit : Commit, (∀ x ∈ tokens, ':' ∈ x) →
      parseTokens commit tokens = .ok (tokens.foldl applyField commit) := by
  induction tokens with
  | nil => intro commit _; rfl
  | cons tok rest ih =>
    intro commit h
    simp only [parseTokens, parseToken_of_colon commit tok (h tok (List.mem_cons_self _ _)),
      List.foldl_cons]
    exact ih _ (fun x hx => h x (List.mem_cons_of_mem _ hx))

/-- Fields other than a matching `SUBJECT` leave type, scope and subject as they are. -/
theorem foldl_applyField_keep (tokens : List Str) :
    ∀ commit : Commit,
      (∀ x ∈ tokens, fieldName x = subjectField → reHeader (fieldValue x) = none) →
      (tokens.foldl applyField commit).Type_ = commit.Type_
        ∧ (tokens.foldl applyField commit).Scope = commit.Scope
        ∧ (tokens.foldl applyField commit).Subject = commit.Subject := by
  induction tokens with
  | nil => intro commit _; exact ⟨rfl, rfl, rfl⟩
  | cons tok rest ih =>
    intro commit h
    have ih2 := ih (applyField commit tok) (fun x hx => h x (List.mem_cons_of_mem _ hx))
    have hk : (applyField commit tok).Type_ = commit.Type_
        ∧ (applyField commit tok).Scope = commit.Scope
        ∧ (applyField commit tok).Subject = commit.Subject := by
      unfold applyField
      split
      · exact ⟨rfl, rfl, rfl⟩
      · split
        · exact ⟨rfl, rfl, rfl⟩
        · split
          · rename_i hsub
            rw [h tok (List.mem_cons_self _ _) hsub]
            exact ⟨rfl, rfl, rfl⟩
          · exact ⟨rfl, rfl, rfl⟩
    rw [List.foldl_cons]
    exact ⟨ih2.1.trans hk.1, ih2.2.1.trans hk.2.1, ih2.2.2.trans hk.2.2⟩

theorem foldl_applyField_scope (tokens : List Str) :
    ∀ commit : Commit,
      (tokens.foldl applyField commit).Scope = tokens.foldl scopeStep commit.Scope := by
  induction tokens with
  | nil => intro commit; rfl
  | cons tok rest ih =>
    intro commit
    rw [List.foldl_cons, List.foldl_cons, ih]
    congr 1
    unfold applyField scopeStep
    split
    · rename_i hh
      have : fieldName tok ≠ subjectField := by rw [hh]; decide
      simp [this]
    · split
      · rename_i ha
        have : fieldName tok ≠ subjectField := by rw [ha]; decide
        simp [this]
      · split
        · split <;> rfl
        · rfl

theorem foldl_applyField_hash (tokens : List Str) :
    ∀ commit : Commit,
      (tokens.foldl applyField commit).Hash = tokens.foldl hashStep commit.Hash := by
  induction tokens with
  | nil => intro commit; rfl
  | cons tok rest ih =>
    intro commit
    rw [List.foldl_cons, List.foldl_cons, ih]
    congr 1
    unfold applyField hashStep
    split
    · rfl
    · split
      · rfl
      · split
        · split <;> rfl
        · rfl

theorem parseToken_no_colon (commit : Commit) (token : Str) (h : ':' ∉ token) :
    parseToken commit token = .panicked := by
  unfold parseToken
  rw [index_char]
  simp only [h, if_false]

/-- When the token loop returns a commit, every token holds a colon. -/
theorem parseTokens_ok_colon (tokens : List Str) :
    ∀ commit result : Commit, parseTokens commit tokens = .ok result →
      ∀ x ∈ tokens, ':' ∈ x := by
  induction tokens with
  | nil => intro _ _ _ x hx; simp at hx
  | cons tok rest ih =>
    intro commit result h x hx
    by_cases hc : ':' ∈ tok
    · rcases List.mem_cons.mp hx with e | e
      · rw [e]; exact hc
      · simp only [parseTokens, parseToken_of_colon commit tok hc] at h
        exact ih _ result h x e
    · simp only [parseTokens, parseToken_no_colon commit tok hc] at h
      exact absurd h (by simp)

theorem parseCommit_ok_colon (diffTree : Str → Option Str) (input : Str) (c : Commit)
    (h : parseCommit diffTree input delimiter = .ok c) :
    ∀ x ∈ strings.Split input delimiter, ':' ∈ x := by
  unfold parseCommit at h
  cases hp : parseTokens Commit.zero (strings.Split input delimiter) with
  | ok commit => exact parseTokens_ok_colon _ _ commit hp
  | err => rw [hp] at h; exact absurd h (by simp)
  | panicked => rw [hp] at h; exact absurd h (by simp)

/-- The result of `parseCommit` on a record all of whose tokens hold a colon. -/
theorem parseCommit_of_colon (diffTree : Str → Option Str) (input : Str)
    (h : ∀ x ∈ strings.Split input delimiter, ':' ∈ x) :
    ∃ c, parseCommit diffTree input delimiter = .ok c
      ∧ c.Hash = ((strings.Split input delimiter).foldl applyField Commit.zero).Hash
      ∧ c.AuthorName = ((strings.Split input delimiter).foldl applyField Commit.zero).AuthorName
      ∧ c.Type_ = ((strings.Split input delimiter).foldl applyField Commit.zero).Type_
      ∧ c.Subject = ((strings.Split input delimiter).foldl applyField Commit.zero).Subject
      ∧ (((strings.Split input delimiter).foldl applyField Commit.zero).Scope ≠ [] →
          c = (strings.Split input delimiter).foldl applyField Commit.zero)
      ∧ (((strings.Split input delimiter).foldl applyField Commit.zero).Scope = [] →
          detectScope diffTree c.Hash = .ok c.Scope) := by
  unfold parseCommit
  rw [parseTokens_of_colon _ _ h]
  simp only []
  by_cases hs : ((strings.Split input delimiter).foldl applyField Commit.zero).Scope = []
  · obtain ⟨scope, hd⟩ := detectScope_ok diffTree
      ((strings.Split input delimiter).foldl applyField Commit.zero).Hash
    rw [if_pos hs, hd]
    exact ⟨_, rfl, rfl, rfl, rfl, rfl, fun hne => absurd hs hne, fun _ => hd⟩
  · rw [if_neg hs]
    exact ⟨_, rfl, rfl, rfl, rfl, rfl, fun _ => rfl, fun he => absurd he hs⟩

theorem applyField_subject (commit : Commit) (token t sc r : Str)
    (hname : fieldName token = subjectField)
    (hre : reHeader (fieldValue token) = some (t, sc, r)) :
    applyField commit token = { commit with Type_ := t, Scope := sc, Subject := r } := by
  have h1 : ¬ subjectField = hashField := by decide
  have h2 : ¬ subjectField = authorField := by decide
  unfold applyField
  rw [hname, if_neg h1, if_neg h2, if_pos rfl, hre]

/-- The commit of a record whose last `SUBJECT` field matches the header expression. -/
theorem parseCommit_subject (diffTree : Str → Option Str) (input : Str)
    (pre post : List Str) (token t sc r : Str)
    (hsplit : strings.Split input delimiter = pre ++ token :: post)
    (hcolon : ∀ x ∈ pre ++ token :: post, ':' ∈ x)
    (hname : fieldName token = subjectField)
    (hlast : ∀ x ∈ post, fieldName x ≠ subjectField)
    (hre : reHeader (fieldValue token) = some (t, sc, r)) :
    ∃ c, parseCommit diffTree input delimiter = .ok c ∧ c.Type_ = t ∧ c.Subject = r
      ∧ (sc ≠ [] → c.Scope = sc)
      ∧ (sc = [] → detectScope diffTree c.Hash = .ok c.Scope) := by
  have hfold : (strings.Split input delimiter).foldl applyField Commit.zero
      = post.foldl applyField
          { (pre.foldl applyField Commit.zero) with Type_ := t, Scope := sc, Subject := r } := by
    rw [hsplit, List.foldl_append, List.foldl_cons, applyField_subject _ token t sc r hname hre]
  have hkeep := foldl_applyField_keep post
    { (pre.foldl applyField Commit.zero) with Type_ := t, Scope := sc, Subject := r }
    (fun x hx hn => absurd hn (hlast x hx))
  rw [← hfold] at hkeep
  obtain ⟨c, hc, _, _, hT, hS, hne, hempty⟩ :=
    parseCommit_of_colon diffTree input (by rw [hsplit]; exact hcolon)
  refine ⟨c, hc, hT.trans hkeep.1, hS.trans hkeep.2.2, ?_, ?_⟩
  · intro hsc
    have h2 : ((strings.Split input delimiter).foldl applyField Commit.zero).Scope ≠ [] := by
      rw [hkeep.2.1]; exact hsc
    rw [hne h2]
    exact hkeep.2.1
  · intro hsc
    apply hempty
    rw [hkeep.2.1]
    exact hsc

/-! ### Claims on `parseCommit` -/

/-- C8: for every type `t` of word characters, every scope `s` of scope characters and
every rest `r` on one line, a record all of whose tokens hold a colon and whose (last)
`SUBJECT` field has the value `t(s): r` is classified to type `t` and subject `r`, with
scope `s` when `s` is not empty; and with the value `t: r` to type `t` and subject `r`,
the scope being what `detectScope` returns for the hash of the commit. -/
theorem parseCommit_conventional (diffTree : Str → Option Str) (input : Str)
    (pre post : List Str) (token t s r : Str)
    (hsplit : strings.Split input delimiter = pre ++ token :: post)
    (hcolon : ∀ x ∈ pre ++ token :: post, ':' ∈ x)
    (hname : fieldName token = subjectField)
    (hlast : ∀ x ∈ post, fieldName x ≠ subjectField)
    (ht : ∀ c ∈ t, isWordChar c = true) (hs : ∀ c ∈ s, isScopeChar c = true)
    (hr : '\n' ∉ r) :
    (fieldValue token = t ++ "(".toList ++ s ++ "): ".toList ++ r →
        ∃ c, parseCommit diffTree input delimiter = .ok c ∧ c.Type_ = t ∧ c.Subject = r
          ∧ (s ≠ [] → c.Scope = s)
          ∧ (s = [] → detectScope diffTree c.Hash = .ok c.Scope))
      ∧ (fieldValue token = t ++ ": ".toList ++ r →
        ∃ c, parseCommit diffTree input delimiter = .ok c ∧ c.Type_ = t ∧ c.Subject = r
          ∧ detectScope diffTree c.Hash = .ok c.Scope) := by
  constructor
  · intro hv
    have hre : reHeader (fieldValue token) = some (t, s, r) := by
      rw [hv]
      have e : t ++ "(".toList ++ s ++ "): ".toList ++ r
          = t ++ '(' :: (s ++ ')' :: ':' :: ' ' :: r) := by
        simp [List.append_assoc]
      rw [e]
      exact reHeader_scoped t s r ' ' ht hs (by decide) hr
    exact parseCommit_subject diffTree input pre post token t s r hsplit hcolon hname hlast hre
  · intro hv
    have hre : reHeader (fieldValue token) = some (t, [], r) := by
      rw [hv]
      have e : t ++ ": ".toList ++ r = t ++ ':' :: ' ' :: r := by
        simp [List.append_assoc]
      rw [e]
      exact reHeader_plain t r ' ' ht (by decide) hr
    obtain ⟨c, hc, hT, hS, _, hd⟩ :=
      parseCommit_subject diffTree input pre post token t [] r hsplit hcolon hname hlast hre
    exact ⟨c, hc, hT, hS, hd rfl⟩

set_option maxRecDepth 20000 in
/-- C8, witness: the subject `fix(api.client): retry on timeout` gives type `fix`, scope
`api.client` and subject `retry on timeout`. -/
theorem parseCommit_conventional_witness :
    ∃ c, parseCommit mqttDiffTree scopedRecord delimiter = .ok c ∧ c.Type_ = "fix".toList
      ∧ c.Subject = "retry on timeout".toList ∧ c.Scope = "api.client".toList :=
  let ⟨c, h1, h2, h3, h4, _⟩ :=
    (parseCommit_conventional mqttDiffTree scopedRecord
      ["HASH:abc123".toList, "AUTHOR:Jane".toList] ["BODY:\n".toList]
      "SUBJECT:fix(api.client): retry on timeout".toList
      "fix".toList "api.client".toList "retry on timeout".toList
      (by decide) (by decide) (by decide) (by decide) (by decide) (by decide) (by decide)).1
      (by decide)
  ⟨c, h1, h2, h3, h4 (by decide)⟩

/-- C9 (as amended): for every record all of whose tokens hold a colon and none of whose
`SUBJECT` values matches the conventional-commit grammar, `parseCommit` returns a commit
without error; its type and subject are empty, its scope is what `detectScope` returns
for the hash of the record (empty when that is empty), and the commit is in no group of
`CreateCommitGroups`, whatever commits stand before and after it. -/
theorem parseCommit_no_match (diffTree : Str → Option Str) (input : Str)
    (hcolon : ∀ x ∈ strings.Split input delimiter, ':' ∈ x)
    (hno : ∀ x ∈ strings.Split input delimiter,
      fieldName x = subjectField → ¬ matchesGrammar (fieldValue x)) :
    ∃ c, parseCommit diffTree input delimiter = .ok c ∧ c.Type_ = [] ∧ c.Subject = []
      ∧ detectScope diffTree (hashValue (strings.Split input delimiter)) = .ok c.Scope
      ∧ ∀ before after : List Commit,
          ∀ g ∈ CreateCommitGroups (before ++ c :: after), c ∉ g.Commits := by
  have hkeep := foldl_applyField_keep (strings.Split input delimiter) Commit.zero
    (fun x hx hn => (reHeader_eq_none_iff _).mpr (hno x hx hn))
  obtain ⟨c, hc, hH, _, hT, hS, _, hempty⟩ := parseCommit_of_colon diffTree input hcolon
  have hT2 : c.Type_ = [] := hT.trans hkeep.1
  refine ⟨c, hc, hT2, hS.trans hkeep.2.2, ?_, ?_⟩
  · have hd := hempty hkeep.2.1
    rw [hH, foldl_applyField_hash] at hd
    exact hd
  · intro before after g hg
    rw [CreateCommitGroups_eq] at hg
    simp only [List.mem_cons, List.mem_singleton, List.not_mem_nil, or_false] at hg
    rcases hg with hg | hg
    · subst hg
      intro hm
      have h2 := (List.mem_filter.mp hm).2
      rw [hT2] at h2
      exact absurd h2 (by decide)
    · subst hg
      intro hm
      have h2 := (List.mem_filter.mp hm).2
      rw [hT2] at h2
      exact absurd h2 (by decide)

/-- C9, witness: the record with the subject `update configs`, in a repository without
changed files. -/
theorem parseCommit_no_match_witness :
    ∃ c, parseCommit (fun _ => none) configRecord delimiter = .ok c ∧ c.Type_ = []
      ∧ c.Subject = []
      ∧ detectScope (fun _ => none) (hashValue (strings.Split configRecord delimiter))
          = .ok c.Scope
      ∧ ∀ before after : List Commit,
          ∀ g ∈ CreateCommitGroups (before ++ c :: after), c ∉ g.Commits :=
  parseCommit_no_match (fun _ => none) configRecord (by decide)
    (by
      have hs : strings.Split configRecord delimiter
          = ["HASH:abc".toList, "SUBJECT:update configs".toList] := by decide
      rw [hs]
      intro x hx _
      simp only [List.mem_cons, List.mem_singleton, List.not_mem_nil, or_false] at hx
      rcases hx with hx | hx
      · subst hx
        exact (reHeader_eq_none_iff _).mp (by decide)
      · subst hx
        exact (reHeader_eq_none_iff _).mp (by decide))

/-- C9, counterexample: the subject `update configs` does not match the header
expression, and in a repository where the commit touches `plugins/inputs/mqtt/mqtt.go`
the commit returned has the scope `inputs.mqtt`, not the empty scope. -/
theorem parseCommit_no_match_counterexample :
    fieldValue "SUBJECT:update configs".toList = "update configs".toList
      ∧ reHeader "update configs".toList = none
      ∧ parseCommit mqttDiffTree configRecord delimiter
          = .ok { Hash := "abc".toList, AuthorName := [], Type_ := [],
                  Scope := "inputs.mqtt".toList, Subject := [] } := by
  decide

/-- C10: for every record on which `parseCommit` returns a commit (it does whenever every
token of the record holds a colon): when the grammar yields a non-empty explicit scope,
the scope of the commit is that scope and the commit returned is the same whatever
`git diff-tree` answers; when the scope is empty after the grammar (no parentheses, empty
parentheses or no match), the scope of the commit is what `detectScope` returns for the
`HASH` value of the record, which may be empty. -/
theorem parseCommit_scope (diffTree : Str → Option Str) (input : Str) :
    ((∀ x ∈ strings.Split input delimiter, ':' ∈ x) →
        ∃ c, parseCommit diffTree input delimiter = .ok c)
      ∧ ∀ c, parseCommit diffTree input delimiter = .ok c →
          (explicitScope (strings.Split input delimiter) ≠ [] →
            c.Scope = explicitScope (strings.Split input delimiter)
              ∧ ∀ other : Str → Option Str, parseCommit other input delimiter = .ok c)
          ∧ (explicitScope (strings.Split input delimiter) = [] →
            c.Hash = hashValue (strings.Split input delimiter)
              ∧ detectScope diffTree (hashValue (strings.Split input delimiter))
                  = .ok c.Scope) := by
  have hsc := foldl_applyField_scope (strings.Split input delimiter) Commit.zero
  have hh := foldl_applyField_hash (strings.Split input delimiter) Commit.zero
  constructor
  · intro hcolon
    obtain ⟨c, hc, _⟩ := parseCommit_of_colon diffTree input hcolon
    exact ⟨c, hc⟩
  · intro c0 hc0
    have hcolon := parseCommit_ok_colon diffTree input c0 hc0
    obtain ⟨c, hc, hH, _, _, _, heq, hempty⟩ := parseCommit_of_colon diffTree input hcolon
    have hcc : c0 = c := by
      rw [hc0] at hc
      exact Result.ok.inj hc
    subst hcc
    constructor
    · intro hne
      have hne2 : ((strings.Split input delimiter).foldl applyField Commit.zero).Scope ≠ [] := by
        rw [hsc]; exact hne
      refine ⟨?_, ?_⟩
      · rw [heq hne2, hsc]
        rfl
      · intro other
        obtain ⟨c2, hc2, _, _, _, _, heq2, _⟩ := parseCommit_of_colon other input hcolon
        rw [hc2, heq2 hne2, heq hne2]
    · intro he
      have he2 : ((strings.Split input delimiter).foldl applyField Commit.zero).Scope = [] := by
        rw [hsc]; exact he
      have hH2 : c0.Hash = hashValue (strings.Split input delimiter) := by
        rw [hH, hh]
        rfl
      refine ⟨hH2, ?_⟩
      rw [← hH2]
      exact hempty he2

set_option maxRecDepth 20000 in
/-- C10, witness: a record with the explicit scope `api.client`, whose commit is the same
in a repository without changed files, and a record without parentheses whose scope comes
from the changed file `plugins/inputs/mqtt/mqtt.go`. -/
theorem parseCommit_scope_witness :
    (∃ c, parseCommit mqttDiffTree scopedRecord delimiter = .ok c
        ∧ c.Scope = explicitScope (strings.Split scopedRecord delimiter)
        ∧ parseCommit (fun _ => none) scopedRecord delimiter = .ok c)
      ∧ (∃ c, parseCommit mqttDiffTree plainRecord delimiter = .ok c
        ∧ c.Hash = hashValue (strings.Split plainRecord delimiter)
        ∧ detectScope mqttDiffTree (hashValue (strings.Split plainRecord delimiter))
            = .ok c.Scope) :=
  let ⟨c1, h1⟩ := (parseCommit_scope mqttDiffTree scopedRecord).1 (by decide)
  let ⟨c2, h2⟩ := (parseCommit_scope mqttDiffTree plainRecord).1 (by decide)
  ⟨⟨c1, h1, (((parseCommit_scope mqttDiffTree scopedRecord).2 c1 h1).1 (by decide)).1,
      (((parseCommit_scope mqttDiffTree scopedRecord).2 c1 h1).1 (by decide)).2 (fun _ => none)⟩,
   ⟨c2, h2, (((parseCommit_scope mqttDiffTree plainRecord).2 c2 h2).2 (by decide)).1,
      (((parseCommit_scope mqttDiffTree plainRecord).2 c2 h2).2 (by decide)).2⟩⟩

/-! ### `strings.Index` and `strings.Split` in general -/

theorem index_of_isPrefix (s sep : Str) (h : sep <+: s) : strings.Index s sep = some 0 := by
  cases s with
  | nil =>
    have : sep = [] := List.prefix_nil.mp h
    simp [strings.Index, this]
  | cons c cs =>
    simp only [strings.Index]
    rw [if_pos (List.isPrefixOf_iff_prefix.mpr h)]

theorem index_length_le (s sep : Str) :
    ∀ i : Nat, strings.Index s sep = some i → i + sep.length ≤ s.length := by
  induction s with
  | nil =>
    intro i h
    simp only [strings.Index] at h
    split at h
    · rename_i he
      simp only [Option.some.injEq] at h
      subst he
      simp [← h]
    · exact absurd h (by simp)
  | cons c cs ih =>
    intro i h
    simp only [strings.Index] at h
    split at h
    · rename_i hp
      have hl := (List.isPrefixOf_iff_prefix.mp hp).length_le
      simp only [Option.some.injEq] at h
      omega
    · cases hi : strings.Index cs sep with
      | none => rw [hi] at h; exact absurd h (by simp)
      | some j =>
        rw [hi] at h
        simp only [Option.map_some', Option.some.injEq] at h
        have := ih j hi
        simp only [List.length_cons]
        omega

theorem index_nil_of_ne (sep : Str) (h : sep ≠ []) : strings.Index [] sep = none := by
  simp [strings.Index, h]

theorem splitLoop_stable (sep : Str) (hsep : sep ≠ []) (n : Nat) :
    ∀ (m : Nat) (s : Str), s.length ≤ n → s.length ≤ m →
      strings.splitLoop n s sep = strings.splitLoop m s sep := by
  induction n with
  | zero =>
    intro m s hn _
    have : s = [] := List.length_eq_zero.mp (Nat.le_zero.mp hn)
    subst this
    cases m <;> simp [strings.splitLoop, index_nil_of_ne sep hsep]
  | succ n ih =>
    intro m s hn hm
    cases m with
    | zero =>
      have : s = [] := List.length_eq_zero.mp (Nat.le_zero.mp hm)
      subst this
      simp [strings.splitLoop, index_nil_of_ne sep hsep]
    | succ m =>
      simp only [strings.splitLoop]
      cases hi : strings.Index s sep with
      | none => rfl
      | some i =>
        have hl := index_length_le s sep i hi
        have hp : 0 < sep.length := List.length_pos.mpr hsep
        simp only []
        rw [ih m (s.drop (i + sep.length)) (by simp only [List.length_drop]; omega)
          (by simp only [List.length_drop]; omega)]

/-- One round of `strings.Split` for a non-empty separator. -/
theorem Split_eq (s sep : Str) (hsep : sep ≠ []) :
    strings.Split s sep
      = match strings.Index s sep with
        | none => [s]
        | some i => s.take i :: strings.Split (s.drop (i + sep.length)) sep := by
  simp only [strings.Split, if_neg hsep]
  cases hl : s.length with
  | zero =>
    have : s = [] := List.length_eq_zero.mp hl
    subst this
    simp [strings.splitLoop, index_nil_of_ne sep hsep]
  | succ k =>
    simp only [strings.splitLoop]
    cases hi : strings.Index s sep with
    | none => rfl
    | some i =>
      have hle := index_length_le s sep i hi
      have hp : 0 < sep.length := List.length_pos.mpr hsep
      simp only []
      rw [splitLoop_stable sep hsep k (s.drop (i + sep.length)).length (s.drop (i + sep.length))
        (by simp only [List.length_drop]; omega) (Nat.le_refl _)]

theorem Split_ne_nil (s sep : Str) (hsep : sep ≠ []) : strings.Split s sep ≠ [] := by
  rw [Split_eq s sep hsep]
  cases strings.Index s sep <;> simp

theorem Split_of_index_none (s sep : Str) (hsep : sep ≠ [])
    (h : strings.Index s sep = none) : strings.Split s sep = [s] := by
  rw [Split_eq s sep hsep, h]

/-- The separator occurs in a text exactly when `strings.Index` finds it. -/
theorem index_isSome_iff (s sep : Str) : (strings.Index s sep).isSome = true ↔ sep <:+: s := by
  induction s with
  | nil =>
    rw [List.infix_nil]
    by_cases h : sep = [] <;> simp [strings.Index, h]
  | cons c cs ih =>
    rw [List.infix_cons_iff, ← ih, ← List.isPrefixOf_iff_prefix]
    simp only [strings.Index]
    by_cases hp : sep.isPrefixOf (c :: cs) = true
    · simp [hp]
    · simp only [hp, if_false, Bool.false_eq_true, false_or]
      cases strings.Index cs sep <;> simp

theorem index_eq_none_iff (s sep : Str) : strings.Index s sep = none ↔ ¬ sep <:+: s := by
  rw [← index_isSome_iff]
  cases strings.Index s sep <;> simp

theorem index_cons (c : Char) (cs sep : Str) :
    strings.Index (c :: cs) sep
      = if sep.isPrefixOf (c :: cs) then some 0 else (strings.Index cs sep).map (· + 1) := by
  simp only [strings.Index]

/-- When the first occurrence of the separator in `r ++ sep` is at the end of `r`, it is
there also in every text that begins with `r ++ sep`. -/
theorem index_append_of_end (sep rest : Str) :
    ∀ r : Str, strings.Index (r ++ sep) sep = some r.length →
      strings.Index (r ++ sep ++ rest) sep = some r.length := by
  intro r
  induction r with
  | nil =>
    intro _
    exact index_of_isPrefix _ _ (by simp)
  | cons c r ih =>
    intro h
    rw [List.cons_append, index_cons] at h
    rw [List.cons_append, List.cons_append, index_cons]
    split at h
    · simp at h
    · rename_i hp
      have hp2 : ¬ sep.isPrefixOf (c :: (r ++ sep ++ rest)) = true := by
        intro hq
        apply hp
        rw [List.isPrefixOf_iff_prefix] at hq ⊢
        have h1 : (c :: (r ++ sep)) <+: c :: (r ++ sep ++ rest) := by
          rw [← List.cons_append]
          exact ⟨rest, by simp⟩
        exact List.prefix_of_prefix_length_le hq h1
          (by simp only [List.length_cons, List.length_append]; omega)
      rw [if_neg hp2]
      cases hi : strings.Index (r ++ sep) sep with
      | none => rw [hi] at h; exact absurd h (by simp)
      | some j =>
        rw [hi] at h
        simp only [Option.map_some', Option.some.injEq, List.length_cons,
          Nat.add_right_cancel_iff] at h
        subst h
        rw [ih hi]
        rfl

theorem Split_cons_of_end (sep r rest : Str) (hsep : sep ≠ [])
    (h : strings.Index (r ++ sep) sep = some r.length) :
    strings.Split (r ++ sep ++ rest) sep = r :: strings.Split rest sep := by
  rw [Split_eq _ sep hsep, index_append_of_end sep rest r h]
  simp only []
  rw [List.append_assoc, List.take_left, ← List.append_assoc, ← List.length_append,
    List.drop_left]

/-! ### `strings.Split` for a separator of one character, piece by piece -/

theorem Split_char_cons (ch : Char) (a b : Str) (h : ch ∉ a) :
    strings.Split (a ++ ch :: b) [ch] = a :: strings.Split b [ch] := by
  have e : a ++ ch :: b = a ++ [ch] ++ b := by simp
  rw [e]
  apply Split_cons_of_end [ch] a b (by simp)
  rw [index_char]
  have hm : ch ∈ a ++ [ch] := by simp
  have ht : (a ++ [ch]).takeWhile (· ≠ ch) = a := by
    rw [List.takeWhile_append_of_pos]
    · simp
    · intro x hx
      have : x ≠ ch := fun e => h (e ▸ hx)
      simpa using this
  rw [if_pos hm, ht]

theorem Split_char_of_not_mem (ch : Char) (a : Str) (h : ch ∉ a) :
    strings.Split a [ch] = [a] := by
  apply Split_of_index_none a [ch] (by simp)
  rw [index_char, if_neg h]

theorem splitLoop_char_not_mem (ch : Char) (fuel : Nat) :
    ∀ s : Str, ∀ x ∈ strings.splitLoop fuel s [ch], s.length ≤ fuel → ch ∉ x := by
  induction fuel with
  | zero =>
    intro s x hx hs
    have : s = [] := List.length_eq_zero.mp (Nat.le_zero.mp hs)
    subst this
    simp only [strings.splitLoop, List.mem_singleton] at hx
    subst hx
    simp
  | succ n ih =>
    intro s x hx hs
    simp only [strings.splitLoop, index_char] at hx
    by_cases hm : ch ∈ s
    · simp only [hm, if_true, List.mem_cons] at hx
      rcases hx with hx | hx
      · subst hx
        rw [take_takeWhile_length]
        intro hc
        have := List.mem_takeWhile_imp hc
        simp at this
      · refine ih _ x hx ?_
        have h2 : 0 < s.length := List.length_pos_of_mem hm
        simp only [List.length_drop, List.length_cons, List.length_nil]
        omega
    · simp only [hm, if_false, List.mem_singleton] at hx
      subst hx
      exact hm

/-- No piece of a split on one character holds that character. -/
theorem Split_char_not_mem (ch : Char) (s : Str) : ∀ x ∈ strings.Split s [ch], ch ∉ x := by
  intro x hx
  simp only [strings.Split, List.cons_ne_nil, if_false] at hx
  exact splitLoop_char_not_mem ch s.length s x hx (Nat.le_refl _)

/-! ### The path expression of `detectScope` -/

theorem detectScopeLoop_cons (c : Str) (rest : List Str) :
    detectScopeLoop (c :: rest)
      = if findPluginPath c ≠ [] then
          match skipGuard (strings.Split (findPluginPath c) ['/']) with
          | none => .panicked
          | some true => detectScopeLoop rest
          | some false =>
            match (strings.Split (findPluginPath c) ['/'])[1]?,
              (strings.Split (findPluginPath c) ['/'])[2]? with
            | some category, some component => .ok (category ++ ['.'] ++ component)
            | _, _ => .panicked
        else detectScopeLoop rest := by
  rfl

theorem detectScopeLoop_skip (c : Str) (rest : List Str) (h : findPluginPath c = []) :
    detectScopeLoop (c :: rest) = detectScopeLoop rest := by
  rw [detectScopeLoop_cons]
  simp [h]

theorem detectScopeLoop_append_skip (before rest : List Str)
    (h : ∀ b ∈ before, findPluginPath b = []) :
    detectScopeLoop (before ++ rest) = detectScopeLoop rest := by
  induction before with
  | nil => rfl
  | cons b bs ih =>
    rw [List.cons_append, detectScopeLoop_skip b _ (h b (List.mem_cons_self _ _))]
    exact ih (fun x hx => h x (List.mem_cons_of_mem _ hx))

theorem matchPluginPathAt_of_no_slash (post : Str) (h : '/' ∉ post) :
    matchPluginPathAt (pluginsSlash ++ post) = none := by
  unfold matchPluginPathAt
  have hp : pluginsSlash.isPrefixOf (pluginsSlash ++ post) = true :=
    List.isPrefixOf_iff_prefix.mpr (List.prefix_append _ _)
  rw [if_pos hp, List.drop_left]
  have hd : List.dropWhile (· ≠ '/') (List.reverse (List.takeWhile (· ≠ '\n') post)) = [] := by
    rw [List.dropWhile_eq_nil_iff]
    intro x hx
    have hx2 : x ∈ post := (List.takeWhile_sublist _).subset (List.mem_reverse.mp hx)
    have : x ≠ '/' := fun e => h (e ▸ hx2)
    simpa using this
  simp only [hd, List.reverse_nil, if_true]

theorem matchPluginPathAt_of_not_isPrefix (s : Str) (h : ¬ pluginsSlash <+: s) :
    matchPluginPathAt s = none := by
  unfold matchPluginPathAt
  rw [if_neg (fun hp => h (List.isPrefixOf_iff_prefix.mp hp))]

theorem findPluginPath_of_suffix (path : Str) (h : noPluginPattern path) :
    ∀ s pre : Str, path = pre ++ s → findPluginPath s = [] := by
  intro s
  induction s with
  | nil => intro _ _; rfl
  | cons c cs ih =>
    intro pre hp
    have hm : matchPluginPathAt (c :: cs) = none := by
      by_cases hpre : pluginsSlash <+: c :: cs
      · obtain ⟨post, hpost⟩ := hpre
        rw [← hpost]
        apply matchPluginPathAt_of_no_slash
        apply h pre post
        rw [hp, ← hpost, List.append_assoc]
      · exact matchPluginPathAt_of_not_isPrefix _ hpre
    unfold findPluginPath
    rw [hm]
    exact ih (pre ++ [c]) (by rw [hp]; simp)

/-- The path expression finds nothing in a path without the pattern. -/
theorem findPluginPath_of_noPattern (path : Str) (h : noPluginPattern path) :
    findPluginPath path = [] :=
  findPluginPath_of_suffix path h path [] rfl

theorem reverse_dropWhile_slash (a b : Str) :
    ((a ++ '/' :: b).reverse.dropWhile (· ≠ '/')).reverse
      = a ++ '/' :: (b.reverse.dropWhile (· ≠ '/')).reverse := by
  have e : (a ++ '/' :: b).reverse = b.reverse ++ '/' :: a.reverse := by simp
  rw [e, List.dropWhile_append]
  split
  · rename_i hemp
    have hnil : List.dropWhile (· ≠ '/') b.reverse = [] := List.isEmpty_iff.mp hemp
    rw [hnil]
    simp [List.dropWhile_cons]
  · simp

/-- The match of the path expression in a path `plugins/category/component/...`. -/
theorem findPluginPath_of_convention (cat comp rest : Str)
    (hn : '\n' ∉ cat ++ '/' :: (comp ++ '/' :: rest)) :
    findPluginPath (pluginsSlash ++ (cat ++ '/' :: (comp ++ '/' :: rest)))
      = pluginsSlash
          ++ (cat ++ '/' :: (comp ++ '/' :: (rest.reverse.dropWhile (· ≠ '/')).reverse)) := by
  have hne : pluginsSlash ++ (cat ++ '/' :: (comp ++ '/' :: rest))
      = 'p' :: ("lugins/".toList ++ (cat ++ '/' :: (comp ++ '/' :: rest))) := rfl
  have hp : pluginsSlash.isPrefixOf
      (pluginsSlash ++ (cat ++ '/' :: (comp ++ '/' :: rest))) = true :=
    List.isPrefixOf_iff_prefix.mpr (List.prefix_append _ _)
  have ht : List.takeWhile (· ≠ '\n') (cat ++ '/' :: (comp ++ '/' :: rest))
      = cat ++ '/' :: (comp ++ '/' :: rest) := by
    rw [List.takeWhile_eq_self_iff]
    intro x hx
    have : x ≠ '\n' := fun e => hn (e ▸ hx)
    simpa using this
  have hm : matchPluginPathAt (pluginsSlash ++ (cat ++ '/' :: (comp ++ '/' :: rest)))
      = some (pluginsSlash
          ++ (cat ++ '/' :: (comp ++ '/' :: (rest.reverse.dropWhile (· ≠ '/')).reverse))) := by
    unfold matchPluginPathAt
    rw [if_pos hp, List.drop_left]
    simp only []
    rw [ht, reverse_dropWhile_slash cat, reverse_dropWhile_slash comp]
    simp
  rw [hne]
  unfold findPluginPath
  rw [← hne, hm]

theorem Split_of_convention (cat comp tl : Str) (hcat : '/' ∉ cat) (hcomp : '/' ∉ comp) :
    strings.Split (pluginsSlash ++ (cat ++ '/' :: (comp ++ '/' :: tl))) ['/']
      = "plugins".toList :: cat :: comp :: strings.Split tl ['/'] := by
  have e : pluginsSlash ++ (cat ++ '/' :: (comp ++ '/' :: tl))
      = "plugins".toList ++ '/' :: (cat ++ '/' :: (comp ++ '/' :: tl)) := rfl
  rw [e, Split_char_cons '/' _ _ (by decide), Split_char_cons '/' cat _ hcat,
    Split_char_cons '/' comp _ hcomp]

/-- The loop of `detectScope` stops at the first path of the form
`plugins/category/component/...` that it reaches. -/
theorem detectScopeLoop_of_convention (cat comp rest : Str) (after : List Str)
    (hn : '\n' ∉ cat ++ '/' :: (comp ++ '/' :: rest))
    (hcat : '/' ∉ cat) (hcomp : '/' ∉ comp) :
    detectScopeLoop ((pluginsSlash ++ (cat ++ '/' :: (comp ++ '/' :: rest))) :: after)
      = .ok (cat ++ ['.'] ++ comp) := by
  have hf := findPluginPath_of_convention cat comp rest hn
  have hs := Split_of_convention cat comp (rest.reverse.dropWhile (· ≠ '/')).reverse hcat hcomp
  have hne : findPluginPath (pluginsSlash ++ (cat ++ '/' :: (comp ++ '/' :: rest))) ≠ [] := by
    rw [hf]
    exact List.cons_ne_nil _ _
  rw [detectScopeLoop_cons, if_pos hne, hf, hs]
  have hg : skipGuard ("plugins".toList :: cat :: comp
      :: strings.Split (rest.reverse.dropWhile (· ≠ '/')).reverse ['/']) = some false := by
    unfold skipGuard
    rw [if_neg (by simp only [List.length_cons]; omega)]
  rw [hg]
  simp

theorem noPluginPattern_of_count (path : Str) (h : path.count '/' ≤ 1) :
    noPluginPattern path := by
  intro pre post hp
  have hc : pluginsSlash.count '/' = 1 := by decide
  rw [hp, List.count_append, List.count_append, hc] at h
  have h0 : post.count '/' = 0 := by omega
  exact List.count_eq_zero.mp h0

/-! ### Claims on `detectScope` -/

/-- C11: evaluation of the code on the changed files of the claim.  For the path
`plugins/outputs/all/README.md` the guard of the skip rule is false, although the
component is `all`: `detectScope` returns `outputs.all` for that file alone, and also when
`plugins/inputs/mqtt/mqtt.go` follows it; the claim asks for the empty scope and for
`inputs.mqtt`. -/
theorem detectScope_all_not_skipped :
    findPluginPath "plugins/outputs/all/README.md".toList = "plugins/outputs/all/".toList
      ∧ strings.Split "plugins/outputs/all/".toList ['/']
          = ["plugins".toList, "outputs".toList, "all".toList, []]
      ∧ skipGuard (strings.Split "plugins/outputs/all/".toList ['/']) = some false
      ∧ detectScope allDiffTree "abc".toList = .ok "outputs.all".toList
      ∧ detectScope allThenMqttDiffTree "abc".toList = .ok "outputs.all".toList := by
  decide

/-- C12 (as amended): for every listing of changed files in which the path expression
`plugins\/(.*){2}\/` finds no match in any path before the path
`plugins/category/component/rest`, with category and component free of `/`,
`detectScope` returns `category.component`, whatever paths come after it. -/
theorem detectScope_first_match (diffTree : Str → Option Str) (hash out : Str)
    (before after : List Str) (cat comp rest : Str)
    (hout : diffTree hash = some out)
    (hsplit : strings.Split out ['\n']
      = before ++ (pluginsSlash ++ (cat ++ '/' :: (comp ++ '/' :: rest))) :: after)
    (hbefore : ∀ b ∈ before, findPluginPath b = [])
    (hcat : '/' ∉ cat) (hcomp : '/' ∉ comp) :
    detectScope diffTree hash = .ok (cat ++ ['.'] ++ comp) := by
  have hmem : (pluginsSlash ++ (cat ++ '/' :: (comp ++ '/' :: rest)))
      ∈ strings.Split out ['\n'] := by
    rw [hsplit]
    simp
  have hn : '\n' ∉ cat ++ '/' :: (comp ++ '/' :: rest) := by
    intro hc
    exact Split_char_not_mem '\n' out _ hmem (List.mem_append_right _ hc)
  have hne : out ≠ [] := by
    intro he
    rw [he] at hmem
    have hs : strings.Split [] ['\n'] = [[]] := by decide
    rw [hs] at hmem
    simp only [List.mem_singleton] at hmem
    have hl := congrArg List.length hmem
    simp [pluginsSlash] at hl
  unfold detectScope
  rw [hout]
  simp only [hne, if_false]
  rw [hsplit, detectScopeLoop_append_skip before _ hbefore]
  exact detectScopeLoop_of_convention cat comp rest after hn hcat hcomp

set_option maxRecDepth 20000 in
/-- C12, witness: the changed files `README.md`, `plugins/inputs/mqtt/mqtt.go` and
`plugins/outputs/kafka/kafka.go` give `inputs.mqtt`. -/
theorem detectScope_first_match_witness :
    detectScope mixedDiffTree "abc".toList = .ok ("inputs".toList ++ ['.'] ++ "mqtt".toList) :=
  detectScope_first_match mixedDiffTree "abc".toList
    "README.md\nplugins/inputs/mqtt/mqtt.go\nplugins/outputs/kafka/kafka.go\n".toList
    ["README.md".toList] ["plugins/outputs/kafka/kafka.go".toList, []]
    "inputs".toList "mqtt".toList "mqtt.go".toList
    rfl (by decide) (by decide) (by decide) (by decide)

set_option maxRecDepth 20000 in
/-- C12, counterexample: in the listing `docs/plugins/outputs/kafka/README.md`,
`plugins/inputs/mqtt/mqtt.go` the first path that begins with `plugins/` and has a category
and a component is the second one, with `inputs` and `mqtt`; the path expression is not
anchored and finds `plugins/outputs/kafka/` inside the first path, so `detectScope` returns
`outputs.kafka` and not `inputs.mqtt`. -/
theorem detectScope_first_match_counterexample :
    ¬ (pluginsSlash <+: "docs/plugins/outputs/kafka/README.md".toList)
      ∧ strings.Split
          "docs/plugins/outputs/kafka/README.md\nplugins/inputs/mqtt/mqtt.go\n".toList ['\n']
          = ["docs/plugins/outputs/kafka/README.md".toList]
              ++ (pluginsSlash ++ ("inputs".toList ++ '/' :: ("mqtt".toList ++ '/'
                :: "mqtt.go".toList))) :: [[]]
      ∧ detectScope docsThenMqttDiffTree "abc".toList = .ok "outputs.kafka".toList
      ∧ detectScope docsThenMqttDiffTree "abc".toList
          ≠ .ok ("inputs".toList ++ ['.'] ++ "mqtt".toList) := by
  decide

/-- C13 (as amended): for every listing of changed files in none of whose paths the text
`plugins/` is followed by a further `/`, the empty listing included, `detectScope` returns
the empty scope. -/
theorem detectScope_no_pattern (diffTree : Str → Option Str) (hash out : Str)
    (hout : diffTree hash = some out)
    (hfree : ∀ path ∈ strings.Split out ['\n'], noPluginPattern path) :
    detectScope diffTree hash = .ok [] := by
  unfold detectScope
  rw [hout]
  simp only []
  split
  · rfl
  · have h := detectScopeLoop_append_skip (strings.Split out ['\n']) []
      (fun b hb => findPluginPath_of_noPattern b (hfree b hb))
    rw [List.append_nil] at h
    rw [h]
    rfl

/-- C13, witness: the changed files `README.md` and `plugins/README.md`. -/
theorem detectScope_no_pattern_witness :
    detectScope readmeDiffTree "abc".toList = .ok [] :=
  detectScope_no_pattern readmeDiffTree "abc".toList "README.md\nplugins/README.md\n".toList
    rfl
    (by
      have hc : ∀ path ∈ strings.Split "README.md\nplugins/README.md\n".toList ['\n'],
          path.count '/' ≤ 1 := by decide
      exact fun path hp => noPluginPattern_of_count path (hc path hp))

/-- C13, counterexample: the path `docs/plugins/inputs/mqtt/README.md` does not begin with
`plugins/`, the path expression finds `plugins/inputs/mqtt/` inside it, and `detectScope`
returns `inputs.mqtt` instead of the empty scope. -/
theorem detectScope_no_pattern_counterexample :
    ¬ (pluginsSlash <+: "docs/plugins/inputs/mqtt/README.md".toList)
      ∧ findPluginPath "docs/plugins/inputs/mqtt/README.md".toList
          = "plugins/inputs/mqtt/".toList
      ∧ detectScope docsDiffTree "abc".toList = .ok "inputs.mqtt".toList := by
  decide

/-- C19: for every output of `git diff-tree` and every hash `detectScope` returns without
a panic; and for every line in which the path expression finds a match, the match split
on `/` has at least three segments, the guard of the skip rule is false, `pluginPath[1]`
and `pluginPath[2]` are in range, and the loop ends at that line with their two values
joined by a dot: the `continue` of the guard is never reached. -/
theorem detectScope_index_safe (diffTree : Str → Option Str) (hash : Str) :
    (∃ scope, detectScope diffTree hash = .ok scope)
      ∧ ∀ c : Str, findPluginPath c ≠ [] →
          3 ≤ (strings.Split (findPluginPath c) ['/']).length
            ∧ skipGuard (strings.Split (findPluginPath c) ['/']) = some false
            ∧ ∃ category component : Str,
                (strings.Split (findPluginPath c) ['/'])[1]? = some category
                  ∧ (strings.Split (findPluginPath c) ['/'])[2]? = some component
                  ∧ ∀ rest : List Str,
                      detectScopeLoop (c :: rest) = .ok (category ++ ['.'] ++ component) := by
  refine ⟨detectScope_ok diffTree hash, ?_⟩
  intro c h
  have hl : 3 ≤ (strings.Split (findPluginPath c) ['/']).length := by
    rw [Split_char_length]
    have := findPluginPath_count c h
    omega
  have hg : skipGuard (strings.Split (findPluginPath c) ['/']) = some false := by
    unfold skipGuard
    rw [if_neg (by omega)]
  refine ⟨hl, hg, ?_⟩
  match hp : strings.Split (findPluginPath c) ['/'], hl with
  | p0 :: p1 :: p2 :: more, _ =>
    refine ⟨p1, p2, by simp, by simp, ?_⟩
    intro rest
    rw [detectScopeLoop_cons, if_pos h, hg, hp]
    simp

/-- C19, witness: the line `plugins/inputs/README.md`, where the match `plugins/inputs/`
has the three segments `plugins`, `inputs` and the empty one. -/
theorem detectScope_index_safe_witness :
    3 ≤ (strings.Split (findPluginPath "plugins/inputs/README.md".toList) ['/']).length
      ∧ skipGuard (strings.Split (findPluginPath "plugins/inputs/README.md".toList) ['/'])
          = some false :=
  ⟨((detectScope_index_safe allDiffTree []).2 "plugins/inputs/README.md".toList
      (by decide)).1,
   ((detectScope_index_safe allDiffTree []).2 "plugins/inputs/README.md".toList
      (by decide)).2.1⟩

/-! ### Records of the log -/

theorem separator_ne_nil : separator ≠ [] := by decide

theorem splitRecords_ok (logs : Str) : ∃ lines, splitRecords logs = .ok lines := by
  unfold splitRecords
  cases h : strings.Split logs separator with
  | nil => exact absurd h (Split_ne_nil logs separator separator_ne_nil)
  | cons l ls => exact ⟨ls, rfl⟩

theorem Split_record_logText (last : Str)
    (hlast : strings.Index last separator = none) (init : List Str) :
    ∀ r0 : Str, strings.Index (r0 ++ separator) separator = some r0.length →
      (∀ r ∈ init, strings.Index (r ++ separator) separator = some r.length) →
      strings.Split (r0 ++ logText (init ++ [last])) separator = r0 :: (init ++ [last]) := by
  induction init with
  | nil =>
    intro r0 h0 _
    have e : r0 ++ logText ([] ++ [last]) = r0 ++ separator ++ last := by
      simp [logText]
    rw [e, Split_cons_of_end separator r0 last separator_ne_nil h0,
      Split_of_index_none last separator separator_ne_nil hlast]
    rfl
  | cons r1 rs ih =>
    intro r0 h0 h
    have e : r0 ++ logText (r1 :: rs ++ [last])
        = r0 ++ separator ++ (r1 ++ logText (rs ++ [last])) := by
      simp [logText]
    rw [e, Split_cons_of_end separator r0 _ separator_ne_nil h0,
      ih r1 (h r1 (List.mem_cons_self _ _)) (fun r hr => h r (List.mem_cons_of_mem _ hr))]
    rfl

/-! ### Claims on the records of `ParseCommits` -/

/-- C14 (as amended): splitting the log never fails, and the empty text yields the empty
sequence; and for every sequence of records of which the last one does not contain the
separator and every other one, followed by the separator, contains the separator only at
its end, the text separator+r1+...+separator+rN is split into exactly these N records in
the original order. -/
theorem splitRecords_records (logs : Str) :
    (∃ lines, splitRecords logs = .ok lines)
      ∧ splitRecords [] = .ok []
      ∧ ∀ (init : List Str) (last : Str),
          (∀ r ∈ init, strings.Index (r ++ separator) separator = some r.length) →
          strings.Index last separator = none →
          splitRecords (logText (init ++ [last])) = .ok (init ++ [last])
            ∧ (init ++ [last]).length = init.length + 1 := by
  refine ⟨splitRecords_ok logs, by decide, ?_⟩
  intro init last hinit hlast
  have h := Split_record_logText last hlast init [] (by decide) hinit
  rw [List.nil_append] at h
  refine ⟨?_, by simp⟩
  unfold splitRecords
  rw [h]

set_option maxRecDepth 20000 in
/-- C14, witness: a log of two records. -/
theorem splitRecords_records_witness :
    splitRecords (logText ([fixRecord] ++ [plainRecord])) = .ok ([fixRecord] ++ [plainRecord]) :=
  ((splitRecords_records []).2.2 [fixRecord] plainRecord (by decide) (by decide)).1

/-- C14, counterexample: neither `@@__CHGLOG__` nor `x` contains the separator, but in the
log of these two records the first separator found behind the leading one begins at the
first record, and the log is split into an empty record and `__CHGLOG__@@x`. -/
theorem splitRecords_records_counterexample :
    strings.Index "@@__CHGLOG__".toList separator = none
      ∧ strings.Index "x".toList separator = none
      ∧ splitRecords (logText ["@@__CHGLOG__".toList, "x".toList])
          = .ok [[], "__CHGLOG__@@x".toList]
      ∧ splitRecords (logText ["@@__CHGLOG__".toList, "x".toList])
          ≠ .ok ["@@__CHGLOG__".toList, "x".toList] := by
  decide

/-! ### Malformed and unrecognised field tokens -/

theorem parseTokens_append (xs ys : List Str) :
    ∀ commit : Commit,
      parseTokens commit (xs ++ ys)
        = match parseTokens commit xs with
          | .ok next => parseTokens next ys
          | .err => .err
          | .panicked => .panicked := by
  induction xs with
  | nil => intro commit; rfl
  | cons x xs ih =>
    intro commit
    rw [List.cons_append]
    simp only [parseTokens]
    cases parseToken commit x with
    | ok next => exact ih next
    | err => rfl
    | panicked => rfl

theorem parseTokens_of_bad (tokens : List Str) :
    ∀ commit : Commit, (∃ token ∈ tokens, ':' ∉ token) →
      parseTokens commit tokens = .panicked := by
  induction tokens with
  | nil => intro _ h; obtain ⟨t, ht, _⟩ := h; simp at ht
  | cons tok rest ih =>
    intro commit h
    by_cases hc : ':' ∈ tok
    · simp only [parseTokens, parseToken_of_colon commit tok hc]
      apply ih
      obtain ⟨t, ht, hbad⟩ := h
      rcases List.mem_cons.mp ht with e | e
      · exact absurd (e ▸ hc) hbad
      · exact ⟨t, e, hbad⟩
    · simp only [parseTokens, parseToken_no_colon commit tok hc]

theorem parseCommit_of_bad (diffTree : Str → Option Str) (input : Str)
    (h : ∃ token ∈ strings.Split input delimiter, ':' ∉ token) :
    parseCommit diffTree input delimiter = .panicked := by
  unfold parseCommit
  rw [parseTokens_of_bad _ _ h]

theorem parseCommit_ne_err (diffTree : Str → Option Str) (input : Str) :
    parseCommit diffTree input delimiter ≠ .err := by
  by_cases h : ∀ x ∈ strings.Split input delimiter, ':' ∈ x
  · obtain ⟨c, hc, _⟩ := parseCommit_of_colon diffTree input h
    rw [hc]
    simp
  · have h2 : ∃ token ∈ strings.Split input delimiter, ':' ∉ token := by
      simpa using h
    rw [parseCommit_of_bad diffTree input h2]
    simp

theorem parseLines_of_bad (diffTree : Str → Option Str) (after : List Str) (input : Str)
    (h : ∃ token ∈ strings.Split input delimiter, ':' ∉ token) :
    ∀ before : List Str, parseLines diffTree (before ++ input :: after) = .panicked := by
  intro before
  induction before with
  | nil =>
    simp only [List.nil_append, parseLines, parseCommit_of_bad diffTree input h]
  | cons b bs ih =>
    rw [List.cons_append]
    simp only [parseLines, ih]
    cases hb : parseCommit diffTree b delimiter with
    | ok c => rfl
    | err => exact absurd hb (parseCommit_ne_err diffTree b)
    | panicked => rfl

theorem ParseCommits_of_logs (git : Git) (logs : Str) (lines : List Str)
    (hgit : gitLogs git = some logs) (hsplit : splitRecords logs = .ok lines) :
    ParseCommits git = parseLines git.diffTree lines := by
  unfold ParseCommits parseLog
  rw [hgit]
  simp only [hsplit]

theorem applyField_other (commit : Commit) (token : Str)
    (hh : fieldName token ≠ hashField) (ha : fieldName token ≠ authorField)
    (hs : fieldName token ≠ subjectField) :
    applyField commit token = commit := by
  unfold applyField
  rw [if_neg hh, if_neg ha, if_neg hs]

theorem fieldName_of_parts (name raw : Str) (h : ':' ∉ name) :
    fieldName (name ++ ':' :: raw) = name := by
  unfold fieldName
  exact takeWhile_until (· ≠ ':') name raw ':'
    (fun c hc => by
      have : c ≠ ':' := fun e => h (e ▸ hc)
      simpa using this)
    (by decide)

theorem fieldValue_of_parts (name raw : Str) (h : ':' ∉ name) :
    fieldValue (name ++ ':' :: raw) = strings.TrimSpace raw := by
  unfold fieldValue
  rw [dropWhile_until (· ≠ ':') name raw ':'
    (fun c hc => by
      have : c ≠ ':' := fun e => h (e ▸ hc)
      simpa using this)
    (by decide)]
  rfl

/-! ### Claims on field tokens -/

/-- C15: what the code does on a record with a field token without colon.  For every such
record `parseCommit` panics (the slice expression `token[0:firstSep]` with `firstSep = -1`)
and returns no error value, and `ParseCommits`, for every log that holds such a record,
panics as well; the claim asks for an error result that `ParseCommits` hands on. -/
theorem parseCommit_malformed (diffTree : Str → Option Str) (input : Str)
    (h : ∃ token ∈ strings.Split input delimiter, ':' ∉ token) :
    parseCommit diffTree input delimiter = .panicked
      ∧ parseCommit diffTree input delimiter ≠ .err
      ∧ ∀ (git : Git) (logs : Str) (before after : List Str),
          gitLogs git = some logs → splitRecords logs = .ok (before ++ input :: after) →
          ParseCommits git = .panicked := by
  refine ⟨parseCommit_of_bad diffTree input h, parseCommit_ne_err diffTree input, ?_⟩
  intro git logs before after hgit hsplit
  rw [ParseCommits_of_logs git logs _ hgit hsplit]
  exact parseLines_of_bad git.diffTree after input h before

set_option maxRecDepth 20000 in
/-- C15, witness: the record `HASH:abc` followed by the token `oops`, alone and behind a
well-formed record of a log. -/
theorem parseCommit_malformed_witness :
    parseCommit (fun _ => none) malformedRecord delimiter = .panicked
      ∧ ParseCommits (gitWithLog (logText [fixRecord, malformedRecord]) (fun _ => none))
          = .panicked :=
  ⟨(parseCommit_malformed (fun _ => none) malformedRecord (by decide)).1,
   (parseCommit_malformed (fun _ => none) malformedRecord (by decide)).2.2
      (gitWithLog (logText [fixRecord, malformedRecord]) (fun _ => none))
      (logText [fixRecord, malformedRecord]) [fixRecord] [] rfl (by decide)⟩

/-- C16: a field token is read as its name, the text before the first colon, and its
value, the trimmed text after it; and for every record and every extra token with a colon
whose name is none of `HASH`, `AUTHOR` and `SUBJECT`, the record with that token inserted
at any position gives the same result of `parseCommit` as the record without it: the same
commit, and no failure that the record did not have. -/
theorem parseCommit_extra_field (diffTree : Str → Option Str) (input inserted : Str)
    (pre post : List Str) (extra : Str)
    (hsplit : strings.Split input delimiter = pre ++ post)
    (hinserted : strings.Split inserted delimiter = pre ++ extra :: post)
    (hcolon : ':' ∈ extra)
    (hh : fieldName extra ≠ hashField) (ha : fieldName extra ≠ authorField)
    (hs : fieldName extra ≠ subjectField) :
    parseCommit diffTree inserted delimiter = parseCommit diffTree input delimiter
      ∧ (∀ commit : Commit, parseToken commit extra = .ok commit)
      ∧ ∀ (commit : Commit) (name raw : Str), ':' ∉ name →
          fieldName (name ++ ':' :: raw) = name
            ∧ fieldValue (name ++ ':' :: raw) = strings.TrimSpace raw
            ∧ parseToken commit (name ++ ':' :: raw)
                = .ok (applyField commit (name ++ ':' :: raw)) := by
  have hextra : ∀ commit : Commit, parseToken commit extra = .ok commit := by
    intro commit
    rw [parseToken_of_colon commit extra hcolon, applyField_other commit extra hh ha hs]
  refine ⟨?_, hextra, ?_⟩
  · unfold parseCommit
    rw [hsplit, hinserted, parseTokens_append, parseTokens_append pre post]
    cases parseTokens Commit.zero pre with
    | ok next => simp only [parseTokens, hextra next]
    | err => rfl
    | panicked => rfl
  · intro commit name raw hname
    exact ⟨fieldName_of_parts name raw hname, fieldValue_of_parts name raw hname,
      parseToken_of_colon commit _ (by simp)⟩

set_option maxRecDepth 20000 in
/-- C16, witness: the field `BODY:see: notes`, whose value holds a colon, between the two
fields of `plainRecord`. -/
theorem parseCommit_extra_field_witness :
    parseCommit mqttDiffTree plainRecordWithBody delimiter
      = parseCommit mqttDiffTree plainRecord delimiter :=
  (parseCommit_extra_field mqttDiffTree plainRecord plainRecordWithBody
    ["HASH:abc123".toList] ["SUBJECT:feat: add parser".toList] "BODY:see: notes".toList
    (by decide) (by decide) (by decide) (by decide) (by decide) (by decide)).1

/-! ### The loop of `ParseCommits` over the records -/

theorem parseLines_of_ok (diffTree : Str → Option Str) (lines : List Str) :
    ∀ commits : List Commit, parseLines diffTree lines = .ok commits →
      ∃ classified : List Commit,
        List.Forall₂ (fun line c => parseCommit diffTree line delimiter = .ok c) lines classified
          ∧ commits = classified.map sliceEntry := by
  induction lines with
  | nil =>
    intro commits h
    simp only [parseLines, Result.ok.injEq] at h
    exact ⟨[], List.Forall₂.nil, h.symm⟩
  | cons line rest ih =>
    intro commits h
    simp only [parseLines] at h
    cases hc : parseCommit diffTree line delimiter with
    | ok commit =>
      rw [hc] at h
      simp only [] at h
      cases hr : parseLines diffTree rest with
      | ok cs =>
        rw [hr] at h
        simp only [Result.ok.injEq] at h
        obtain ⟨classified, hf, hm⟩ := ih cs hr
        refine ⟨commit :: classified, List.Forall₂.cons hc hf, ?_⟩
        rw [← h, hm]
        rfl
      | err => rw [hr] at h; exact absurd h (by simp)
      | panicked => rw [hr] at h; exact absurd h (by simp)
    | err => rw [hc] at h; exact absurd h (by simp)
    | panicked => rw [hc] at h; exact absurd h (by simp)

theorem parseLines_of_colon (diffTree : Str → Option Str) (lines : List Str)
    (h : ∀ line ∈ lines, ∀ token ∈ strings.Split line delimiter, ':' ∈ token) :
    ∃ classified : List Commit,
      List.Forall₂ (fun line c => parseCommit diffTree line delimiter = .ok c) lines classified
        ∧ parseLines diffTree lines = .ok (classified.map sliceEntry) := by
  induction lines with
  | nil => exact ⟨[], List.Forall₂.nil, rfl⟩
  | cons line rest ih =>
    obtain ⟨classified, hf, hp⟩ := ih (fun l hl => h l (List.mem_cons_of_mem _ hl))
    obtain ⟨c, hc, _⟩ := parseCommit_of_colon diffTree line (h line (List.mem_cons_self _ _))
    refine ⟨c :: classified, List.Forall₂.cons hc hf, ?_⟩
    simp only [parseLines, hc, hp]
    rfl

/-- The classified commits of given records are unique. -/
theorem classified_unique (diffTree : Str → Option Str) (lines : List Str) :
    ∀ xs ys : List Commit,
      List.Forall₂ (fun line c => parseCommit diffTree line delimiter = .ok c) lines xs →
      List.Forall₂ (fun line c => parseCommit diffTree line delimiter = .ok c) lines ys →
      xs = ys := by
  induction lines with
  | nil =>
    intro xs ys hx hy
    cases hx
    cases hy
    rfl
  | cons line rest ih =>
    intro xs ys hx hy
    cases hx with
    | cons hx1 hx2 =>
      cases hy with
      | cons hy1 hy2 =>
        rw [hx1] at hy1
        rw [Result.ok.inj hy1, ih _ _ hx2 hy2]

/-- The ignore check is a case-sensitive search for a substring anywhere in the subject. -/
theorem isIgnored_iff (subject : Str) :
    isIgnored subject = true ↔ ∃ substring ∈ ignoreList, substring <:+: subject := by
  unfold isIgnored strings.Contains
  rw [List.any_eq_true]
  constructor
  · intro h
    obtain ⟨x, hx, hi⟩ := h
    exact ⟨x, hx, (index_isSome_iff subject x).mp hi⟩
  · intro h
    obtain ⟨x, hx, hi⟩ := h
    exact ⟨x, hx, (index_isSome_iff subject x).mpr hi⟩

theorem sliceEntry_not_ignored (c : Commit) : isIgnored (sliceEntry c).Subject = false := by
  unfold sliceEntry
  by_cases h : isIgnored c.Subject = true
  · rw [if_pos h]
    decide
  · rw [if_neg h]
    simpa using h

theorem filter_sublist_map_sliceEntry (classified : List Commit) :
    (classified.filter (fun c => !isIgnored c.Subject)).Sublist (classified.map sliceEntry) := by
  induction classified with
  | nil => exact List.Sublist.slnil
  | cons c cs ih =>
    by_cases h : isIgnored c.Subject = true
    · rw [List.filter_cons_of_neg (by simp [h]), List.map_cons]
      exact List.Sublist.cons _ ih
    · have hs : sliceEntry c = c := by
        unfold sliceEntry
        rw [if_neg h]
      rw [List.filter_cons_of_pos (by simpa using h), List.map_cons, hs]
      exact List.Sublist.cons₂ _ ih

theorem filter_type_map_sliceEntry (t : Str) (ht : t ≠ []) (classified : List Commit) :
    (classified.map sliceEntry).filter (fun c => c.Type_ = t)
      = (classified.filter (fun c => !isIgnored c.Subject)).filter (fun c => c.Type_ = t) := by
  induction classified with
  | nil => rfl
  | cons c cs ih =>
    by_cases h : isIgnored c.Subject = true
    · have hs : sliceEntry c = Commit.zero := by
        unfold sliceEntry
        rw [if_pos h]
      have hz : decide (Commit.zero.Type_ = t) = false := by
        have : ¬ Commit.zero.Type_ = t := fun e => ht e.symm
        simpa using this
      have hb : (!isIgnored c.Subject) = false := by simp [h]
      simp only [List.map_cons, hs, List.filter_cons, hb, hz, ih, if_false,
        Bool.false_eq_true]
    · have hs : sliceEntry c = c := by
        unfold sliceEntry
        rw [if_neg h]
      have hb : (!isIgnored c.Subject) = true := by simpa using h
      simp only [List.map_cons, hs, List.filter_cons, hb, ih, if_true]

/-- Grouping does not see the placeholders of ignored commits. -/
theorem CreateCommitGroups_map_sliceEntry (classified : List Commit) :
    CreateCommitGroups (classified.map sliceEntry)
      = CreateCommitGroups (classified.filter (fun c => !isIgnored c.Subject)) := by
  rw [CreateCommitGroups_eq, CreateCommitGroups_eq,
    filter_type_map_sliceEntry "fix".toList (by decide),
    filter_type_map_sliceEntry "feat".toList (by decide)]

/-! ### Claims on the ignore filter of `ParseCommits` -/

/-- C17 (as amended): when the queries of `ParseCommits` succeed and every field token of
every record holds a colon, the sequence returned has one entry for every record, in the
order of the log: the classified commit when its parsed subject contains none of the
substrings to ignore (as a substring anywhere in the subject), and the zero-valued commit
in its place when it contains one.  So no entry has a subject with a substring to ignore,
and the classified commits that are not ignored are a subsequence of the sequence
returned. -/
theorem ParseCommits_ignore (git : Git) (logs : Str) (lines : List Str)
    (hgit : gitLogs git = some logs) (hsplit : splitRecords logs = .ok lines)
    (hcolon : ∀ line ∈ lines, ∀ token ∈ strings.Split line delimiter, ':' ∈ token) :
    ∃ classified : List Commit,
      List.Forall₂ (fun line c => parseCommit git.diffTree line delimiter = .ok c)
          lines classified
        ∧ ParseCommits git = .ok (classified.map sliceEntry)
        ∧ (∀ c : Commit, (∃ substring ∈ ignoreList, substring <:+: c.Subject) →
            sliceEntry c = Commit.zero)
        ∧ (∀ c : Commit, (¬ ∃ substring ∈ ignoreList, substring <:+: c.Subject) →
            sliceEntry c = c)
        ∧ (classified.filter (fun c => !isIgnored c.Subject)).Sublist
            (classified.map sliceEntry)
        ∧ ∀ c ∈ classified.map sliceEntry,
            ¬ ∃ substring ∈ ignoreList, substring <:+: c.Subject := by
  obtain ⟨classified, hf, hp⟩ := parseLines_of_colon git.diffTree lines hcolon
  refine ⟨classified, hf, ?_, ?_, ?_, filter_sublist_map_sliceEntry classified, ?_⟩
  · rw [ParseCommits_of_logs git logs lines hgit hsplit]
    exact hp
  · intro c hc
    unfold sliceEntry
    rw [if_pos ((isIgnored_iff c.Subject).mpr hc)]
  · intro c hc
    unfold sliceEntry
    rw [if_neg (fun hi => hc ((isIgnored_iff c.Subject).mp hi))]
  · intro c hc hex
    obtain ⟨c2, _, hc2⟩ := List.mem_map.mp hc
    have h1 := sliceEntry_not_ignored c2
    rw [hc2] at h1
    have h2 := (isIgnored_iff c.Subject).mpr hex
    rw [h1] at h2
    exact absurd h2 (by simp)

set_option maxRecDepth 20000 in
/-- C17, witness: a log with an ignored record and a fix. -/
theorem ParseCommits_ignore_witness :
    ∃ classified : List Commit,
      ParseCommits (gitWithLog (logText [ignoredRecord, fixRecord]) (fun _ => none))
          = .ok (classified.map sliceEntry)
        ∧ (classified.filter (fun c => !isIgnored c.Subject)).Sublist
            (classified.map sliceEntry) :=
  let ⟨classified, _, h2, _, _, h5, _⟩ :=
    ParseCommits_ignore (gitWithLog (logText [ignoredRecord, fixRecord]) (fun _ => none))
      (logText [ignoredRecord, fixRecord]) [ignoredRecord, fixRecord] rfl (by decide)
      (by decide)
  ⟨classified, h2, h5⟩

set_option maxRecDepth 20000 in
/-- C17, counterexample: the log holds the one record `ignoredRecord`, whose parsed
subject `update configs` is to be ignored; the sequence returned is not the empty
sequence of the commits that are not ignored, it holds one zero-valued commit. -/
theorem ParseCommits_ignore_counterexample :
    parseCommit (fun _ => none) ignoredRecord delimiter = .ok ignoredCommit
      ∧ isIgnored ignoredCommit.Subject = true
      ∧ ParseCommits (gitWithLog (logText [ignoredRecord]) (fun _ => none))
          = .ok [Commit.zero]
      ∧ ParseCommits (gitWithLog (logText [ignoredRecord]) (fun _ => none))
          ≠ .ok ([ignoredCommit].filter (fun c => !isIgnored c.Subject)) := by
  decide

theorem not_isIgnored_eq (subject : Str) :
    (!isIgnored subject)
      = decide (¬ ∃ substring ∈ ignoreList, substring <:+: subject) := by
  by_cases h : isIgnored subject = true
  · have hex := (isIgnored_iff subject).mp h
    rw [h, decide_eq_false (fun hn => hn hex)]
    rfl
  · have hne : ¬ ∃ substring ∈ ignoreList, substring <:+: subject :=
      fun hex => h ((isIgnored_iff subject).mpr hex)
    have hf : isIgnored subject = false := by simpa using h
    rw [hf, decide_eq_true hne]
    rfl

/-- C18: when the queries of `ParseCommits` succeed, for every log with the records
`lines`: if every field token of every record holds a colon, `ParseCommits` returns a
slice; and every slice it returns has one entry for every record, the entry being the
zero-valued commit when the parsed subject of the classified commit contains one of the
substrings of the ignore list, and the classified commit at its index otherwise; grouping
that slice gives the groups of the classified commits whose subject contains none of the
substrings, and no placeholder and no commit whose subject contains one of them is in a
group. -/
theorem ParseCommits_placeholders (git : Git) (logs : Str) (lines : List Str)
    (hgit : gitLogs git = some logs) (hsplit : splitRecords logs = .ok lines) :
    ((∀ line ∈ lines, ∀ token ∈ strings.Split line delimiter, ':' ∈ token) →
        ∃ commits, ParseCommits git = .ok commits)
      ∧ ∀ commits : List Commit, ParseCommits git = .ok commits →
          ∃ classified : List Commit,
            List.Forall₂ (fun line c => parseCommit git.diffTree line delimiter = .ok c)
                lines classified
              ∧ commits.length = lines.length
              ∧ commits = classified.map sliceEntry
              ∧ (∀ (i : Nat) (c : Commit), classified[i]? = some c →
                  ((∃ substring ∈ ignoreList, substring <:+: c.Subject) →
                      commits[i]? = some Commit.zero)
                    ∧ ((¬ ∃ substring ∈ ignoreList, substring <:+: c.Subject) →
                      commits[i]? = some c))
              ∧ CreateCommitGroups commits
                  = CreateCommitGroups
                      (classified.filter
                        (fun c => decide (¬ ∃ substring ∈ ignoreList, substring <:+: c.Subject)))
              ∧ ∀ g ∈ CreateCommitGroups commits,
                  Commit.zero ∉ g.Commits
                    ∧ ∀ c ∈ g.Commits,
                        ¬ ∃ substring ∈ ignoreList, substring <:+: c.Subject := by
  constructor
  · intro hcolon
    obtain ⟨classified, _, hp⟩ := parseLines_of_colon git.diffTree lines hcolon
    exact ⟨_, by rw [ParseCommits_of_logs git logs lines hgit hsplit]; exact hp⟩
  · intro commits hret
    rw [ParseCommits_of_logs git logs lines hgit hsplit] at hret
    obtain ⟨classified, hf, hm⟩ := parseLines_of_ok git.diffTree lines commits hret
    refine ⟨classified, hf, ?_, hm, ?_, ?_, ?_⟩
    · rw [hm, List.length_map, hf.length_eq]
    · intro i c hi
      have hget : commits[i]? = some (sliceEntry c) := by
        rw [hm, List.getElem?_map, hi]
        rfl
      constructor
      · intro hex
        rw [hget]
        unfold sliceEntry
        rw [if_pos ((isIgnored_iff c.Subject).mpr hex)]
      · intro hne
        rw [hget]
        unfold sliceEntry
        rw [if_neg (fun hi2 => hne ((isIgnored_iff c.Subject).mp hi2))]
    · rw [hm, CreateCommitGroups_map_sliceEntry]
      congr 1
      exact List.filter_congr (fun c _ => not_isIgnored_eq c.Subject)
    · intro g hg
      rw [CreateCommitGroups_eq] at hg
      have hmem : ∀ c ∈ commits, ¬ ∃ substring ∈ ignoreList, substring <:+: c.Subject := by
        intro c hc hex
        rw [hm] at hc
        obtain ⟨c2, _, hc2⟩ := List.mem_map.mp hc
        have h1 := sliceEntry_not_ignored c2
        rw [hc2] at h1
        have h2 := (isIgnored_iff c.Subject).mpr hex
        rw [h1] at h2
        exact absurd h2 (by simp)
      simp only [List.mem_cons, List.mem_singleton, List.not_mem_nil, or_false] at hg
      rcases hg with hg | hg
      · subst hg
        refine ⟨?_, fun c hc => hmem c (List.mem_filter.mp hc).1⟩
        intro hz
        have := (List.mem_filter.mp hz).2
        exact absurd this (by decide)
      · subst hg
        refine ⟨?_, fun c hc => hmem c (List.mem_filter.mp hc).1⟩
        intro hz
        have := (List.mem_filter.mp hz).2
        exact absurd this (by decide)

set_option maxRecDepth 20000 in
/-- C18, witness: a log with a fix whose subject holds `update configs` and a fix that is
kept; the slice returned holds the placeholder and the second fix, and only the second fix
is grouped. -/
theorem ParseCommits_placeholders_witness :
    (∃ commits,
        ParseCommits (gitWithLog (logText [ignoredFixRecord, fixRecord]) (fun _ => none))
          = .ok commits)
      ∧ ∃ classified : List Commit,
          [Commit.zero, fixCommit].length = [ignoredFixRecord, fixRecord].length
            ∧ [Commit.zero, fixCommit] = classified.map sliceEntry
            ∧ CreateCommitGroups [Commit.zero, fixCommit]
                = CreateCommitGroups
                    (classified.filter
                      (fun c => decide (¬ ∃ substring ∈ ignoreList, substring <:+: c.Subject))) :=
  ⟨(ParseCommits_placeholders
      (gitWithLog (logText [ignoredFixRecord, fixRecord]) (fun _ => none))
      (logText [ignoredFixRecord, fixRecord]) [ignoredFixRecord, fixRecord] rfl (by decide)).1
      (by decide),
   let ⟨classified, _, h2, h3, _, h5, _⟩ :=
    (ParseCommits_placeholders
      (gitWithLog (logText [ignoredFixRecord, fixRecord]) (fun _ => none))
      (logText [ignoredFixRecord, fixRecord]) [ignoredFixRecord, fixRecord] rfl (by decide)).2
      [Commit.zero, fixCommit] (by decide)
   ⟨classified, h2, h3, h5⟩⟩

/-! ### The tab index of the plugin page -/

theorem indexInt_of_range {α : Type} (xs : List α) (i : Int) (h0 : 0 ≤ i)
    (h1 : i ≤ (xs.length : Int) - 1) : ∃ x, indexInt xs i = some x := by
  unfold indexInt
  rw [if_pos h0]
  have hlt : i.toNat < xs.length := by omega
  exact ⟨xs[i.toNat], List.getElem?_eq_getElem hlt⟩

theorem forward_of_range {M C : Type} (w : Widgets M C) (p : PluginPage M) (msg : Msg)
    (h0 : 0 ≤ p.activatedTab) (h1 : p.activatedTab ≤ (p.Tabs.length : Int) - 1)
    (hc : p.TabContent.length = p.Tabs.length) :
    ∃ next cmd, p.forward w msg = .ok (next, cmd) ∧ next.activatedTab = p.activatedTab
      ∧ next.Tabs = p.Tabs ∧ next.TabContent.length = p.TabContent.length := by
  obtain ⟨content, hx⟩ := indexInt_of_range p.TabContent p.activatedTab h0 (by rw [hc]; exact h1)
  unfold PluginPage.forward
  rw [hx]
  exact ⟨_, _, rfl, rfl, rfl, by simp⟩

/-- One message keeps the index in range, the tabs as they are and a list for every tab. -/
theorem Update_of_range {M C : Type} (w : Widgets M C) (p : PluginPage M) (msg : Msg)
    (h0 : 0 ≤ p.activatedTab) (h1 : p.activatedTab ≤ (p.Tabs.length : Int) - 1)
    (hc : p.TabContent.length = p.Tabs.length) :
    ∃ next cmd, p.Update w msg = .ok (next, cmd)
      ∧ 0 ≤ next.activatedTab ∧ next.activatedTab ≤ (next.Tabs.length : Int) - 1
      ∧ next.TabContent.length = next.Tabs.length ∧ next.Tabs = p.Tabs := by
  cases msg with
  | other =>
    obtain ⟨next, cmd, hf, ha, ht, hl⟩ := forward_of_range w p .other h0 h1 hc
    exact ⟨next, cmd, hf, by rw [ha]; exact h0, by rw [ha, ht]; exact h1,
      by rw [hl, ht]; exact hc, ht⟩
  | key keypress =>
    unfold PluginPage.Update
    simp only []
    split
    · exact ⟨_, _, rfl, h0, h1, hc, rfl⟩
    · split
      · by_cases hr : p.activatedTab < (p.Tabs.length : Int) - 1
        · rw [if_pos hr]
          exact ⟨_, _, rfl, by simp only []; omega, by simp only []; omega, hc, rfl⟩
        · rw [if_neg hr]
          exact ⟨_, _, rfl, h0, h1, hc, rfl⟩
      · split
        · by_cases hl : p.activatedTab > 0
          · rw [if_pos hl]
            exact ⟨_, _, rfl, by simp only []; omega, by simp only []; omega, hc, rfl⟩
          · rw [if_neg hl]
            exact ⟨_, _, rfl, h0, h1, hc, rfl⟩
        · obtain ⟨next, cmd, hf, ha, ht, hl⟩ := forward_of_range w p (.key keypress) h0 h1 hc
          exact ⟨next, cmd, hf, by rw [ha]; exact h0, by rw [ha, ht]; exact h1,
            by rw [hl, ht]; exact hc, ht⟩

theorem runUpdates_of_range {M C : Type} (w : Widgets M C) (msgs : List Msg) :
    ∀ p : PluginPage M, 0 ≤ p.activatedTab → p.activatedTab ≤ (p.Tabs.length : Int) - 1 →
      p.TabContent.length = p.Tabs.length →
      ∃ last, runUpdates w p msgs = .ok last
        ∧ 0 ≤ last.activatedTab ∧ last.activatedTab ≤ (last.Tabs.length : Int) - 1
        ∧ last.TabContent.length = last.Tabs.length ∧ last.Tabs = p.Tabs := by
  induction msgs with
  | nil => intro p h0 h1 hc; exact ⟨p, rfl, h0, h1, hc, rfl⟩
  | cons msg rest ih =>
    intro p h0 h1 hc
    obtain ⟨next, cmd, hu, n0, n1, nc, nt⟩ := Update_of_range w p msg h0 h1 hc
    obtain ⟨last, hl, l0, l1, lc, lt⟩ := ih next n0 n1 nc
    refine ⟨last, ?_, l0, l1, lc, lt.trans nt⟩
    simp only [runUpdates, hu]
    exact hl

theorem Update_other_key {M C : Type} (w : Widgets M C) (p : PluginPage M) (keypress : Str)
    (hr : keypress ≠ "right".toList) (hl : keypress ≠ "left".toList)
    (h0 : 0 ≤ p.activatedTab) (h1 : p.activatedTab ≤ (p.Tabs.length : Int) - 1)
    (hc : p.TabContent.length = p.Tabs.length) :
    ∃ next cmd, p.Update w (.key keypress) = .ok (next, cmd)
      ∧ next.activatedTab = p.activatedTab := by
  unfold PluginPage.Update
  simp only []
  split
  · exact ⟨_, _, rfl, rfl⟩
  · obtain ⟨next, cmd, hf, ha, _, _⟩ := forward_of_range w p (.key keypress) h0 h1 hc
    exact ⟨next, cmd, hf, ha⟩

/-- C20: starting from `NewPluginPage`, after every sequence of messages handled by
`Update` the page has its four tabs and four lists and an index with
`0 <= activatedTab <= len(Tabs) - 1`, so the index expressions of `Update` and `View` are
in range and neither panics; `right` on the last tab and `left` on the first tab leave
the index as it is, and so does every key other than `right` and `left`, and every
message that is no key. -/
theorem PluginPage_index_in_range {M C : Type} (w : Widgets M C)
    (inputContent outputContent aggregatorContent processorContent : List Item)
    (msgs : List Msg) :
    ∃ p : PluginPage M,
      runUpdates w
          (NewPluginPage w inputContent outputContent aggregatorContent processorContent) msgs
          = .ok p
        ∧ p.Tabs.length = 4 ∧ p.TabContent.length = 4
        ∧ 0 ≤ p.activatedTab ∧ p.activatedTab ≤ (p.Tabs.length : Int) - 1
        ∧ (∃ content, indexInt p.TabContent p.activatedTab = some content)
        ∧ (∃ doc, p.View w = .ok doc)
        ∧ (∀ msg : Msg, ∃ next cmd, p.Update w msg = .ok (next, cmd))
        ∧ (p.activatedTab = (p.Tabs.length : Int) - 1 →
            ∃ next cmd, p.Update w (.key "right".toList) = .ok (next, cmd)
              ∧ next.activatedTab = p.activatedTab)
        ∧ (p.activatedTab = 0 →
            ∃ next cmd, p.Update w (.key "left".toList) = .ok (next, cmd)
              ∧ next.activatedTab = p.activatedTab)
        ∧ (∀ keypress : Str, keypress ≠ "right".toList → keypress ≠ "left".toList →
            ∃ next cmd, p.Update w (.key keypress) = .ok (next, cmd)
              ∧ next.activatedTab = p.activatedTab)
        ∧ ∃ next cmd, p.Update w .other = .ok (next, cmd)
            ∧ next.activatedTab = p.activatedTab := by
  obtain ⟨p, hrun, h0, h1, hc, ht⟩ := runUpdates_of_range w msgs
    (NewPluginPage w inputContent outputContent aggregatorContent processorContent)
    (by simp [NewPluginPage]) (by simp [NewPluginPage]) (by simp [NewPluginPage])
  have htl : p.Tabs.length = 4 := by rw [ht]; rfl
  obtain ⟨content, hx⟩ := indexInt_of_range p.TabContent p.activatedTab h0 (by rw [hc]; exact h1)
  refine ⟨p, hrun, htl, by rw [hc, htl], h0, h1, ⟨content, hx⟩, ?_, ?_, ?_, ?_, ?_, ?_⟩
  · unfold PluginPage.View
    rw [hx]
    exact ⟨_, rfl⟩
  · intro msg
    obtain ⟨next, cmd, hu, _⟩ := Update_of_range w p msg h0 h1 hc
    exact ⟨next, cmd, hu⟩
  · intro hlast
    have hn : ¬ p.activatedTab < (p.Tabs.length : Int) - 1 := by omega
    refine ⟨p, none, ?_, rfl⟩
    unfold PluginPage.Update
    simp [hn]
  · intro hfirst
    have hn : ¬ p.activatedTab > 0 := by omega
    refine ⟨p, none, ?_, rfl⟩
    unfold PluginPage.Update
    simp [hn]
  · intro keypress hr hl
    exact Update_other_key w p keypress hr hl h0 h1 hc
  · obtain ⟨next, cmd, hf, ha, _, _⟩ := forward_of_range w p .other h0 h1 hc
    exact ⟨next, cmd, hf, ha⟩

/-- C20, witness: five times `right`, a key without meaning and a message that is no key,
on a page with empty lists. -/
theorem PluginPage_index_in_range_witness :
    ∃ p : PluginPage Nat,
      runUpdates countingWidgets (NewPluginPage countingWidgets [] [] [] [])
          [.key "right".toList, .key "right".toList, .key "right".toList,
            .key "right".toList, .key "right".toList, .key "x".toList, .other]
          = .ok p
        ∧ 0 ≤ p.activatedTab ∧ p.activatedTab ≤ (p.Tabs.length : Int) - 1 :=
  let ⟨p, h1, _, _, h4, h5, _⟩ :=
    PluginPage_index_in_range countingWidgets [] [] [] []
      [.key "right".toList, .key "right".toList, .key "right".toList,
        .key "right".toList, .key "right".toList, .key "x".toList, .other]
  ⟨p, h1, h4, h5⟩

end Changelog
